import Mathlib

/-!
Shallow embedding of the p3-bridge core (CRC16, byte utilities, P3 name/type
tables, the persistent HTTP retry queue, the inline retry loop, and the TCP
reconnect backoff), with theorems settling the specification claims.

JavaScript numbers are modelled as follows: bitwise operations on 32-bit
integers act on the bit pattern, so they are modelled on `Nat` with explicit
`% 2^32` where the pattern wraps; exact decimal arithmetic (`0.85`, backoff
factors) is modelled in `ℚ` — for every comparison performed by the code the
operands are either exactly representable or far enough apart that IEEE-754
double rounding cannot change the outcome at realistic input sizes.
-/

namespace P3Bridge

/-! ### CRC16 (src/unnamed/part_000) -/

/-- One polynomial shift step shared by buildTable's inner loop:
crc = (crc & 0x8000) ? (((crc << 1) ^ 0x1021) & 0xFFFF) : ((crc << 1) & 0xFFFF). -/
def crcShiftStep (crc : Nat) : Nat :=
  if crc &&& 0x8000 ≠ 0 then ((crc <<< 1) ^^^ 0x1021) &&& 0xFFFF
  else (crc <<< 1) &&& 0xFFFF

/-- buildTable (src/unnamed/part_000, lines 4-14): entry i starts from
(i << 8) & 0xFFFF and applies eight shift steps. -/
def tableEntry (i : Nat) : Nat :=
  crcShiftStep^[8] ((i <<< 8) &&& 0xFFFF)

/-- crc16Ccitt (src/unnamed/part_000, lines 18-26): starting from 0xFFFF, for each
byte: crc = (CRC16_TABLE[(crc >> 8) & 0xFF] ^ ((crc << 8) & 0xFFFF) ^ (b & 0xFF)) & 0xFFFF. -/
def crc16Ccitt (buf : List Nat) : Nat :=
  buf.foldl (fun crc b0 =>
    let b := b0 &&& 0xFF
    let idx := (crc >>> 8) &&& 0xFF
    (tableEntry idx ^^^ ((crc <<< 8) &&& 0xFFFF) ^^^ b) &&& 0xFFFF) 0xFFFF

/-- Modelled from the spec: the bit-by-bit reference CRC-16/CCITT-FALSE
(polynomial 0x1021, init 0xFFFF, no reflection, no final XOR) that the claim
compares the code against: each input byte is XORed into the high byte of the
running CRC, followed by eight polynomial shift steps. -/
def crc16Ref (buf : List Nat) : Nat :=
  buf.foldl (fun crc b => crcShiftStep^[8] (crc ^^^ (((b &&& 0xFF) <<< 8) &&& 0xFFFF))) 0xFFFF

/-! ### Byte utilities (src/src/util/bytes.js) -/

/-- readUIntLE (src/src/util/bytes.js, lines 6-12). A missing buffer is `none`.
Each step is v |= (buf[i] << (8*i)): JavaScript bitwise operators work on 32-bit
patterns, so the shift count is reduced mod 32 and the shifted value is reduced
mod 2^32; the final v >>> 0 reads the accumulated 32-bit pattern as unsigned,
which is the identity here because the accumulator never leaves [0, 2^32). -/
def readUIntLE (buf : Option (List Nat)) : Nat :=
  match buf with
  | none => 0
  | some l =>
    (l.enum.foldl (fun v ib => v ||| (((ib.2 % 2 ^ 32) <<< (8 * ib.1 % 32)) % 2 ^ 32)) 0)

/-- Little-endian unsigned value of a byte list (the mathematical notion the
claim compares readUIntLE against). -/
def leValue : List Nat → Nat
  | [] => 0
  | b :: t => b + 256 * leValue t

/-- Printable-byte counter from isMostlyPrintable's loop (src/src/util/bytes.js,
lines 14-21): TAB, LF, CR and 0x20..0x7E count. -/
def printableCount (buf : List Nat) : Nat :=
  buf.foldl (fun ok b =>
    if b = 9 ∨ b = 10 ∨ b = 13 then ok + 1
    else if 32 ≤ b ∧ b ≤ 126 then ok + 1
    else ok) 0

/-- isMostlyPrintable (src/src/util/bytes.js, lines 14-21):
(buf.length > 0) && (ok / buf.length > 0.85), the quotient taken exactly in ℚ. -/
def isMostlyPrintable (buf : List Nat) : Bool :=
  decide (0 < buf.length) &&
    decide ((85 / 100 : ℚ) < (printableCount buf : ℚ) / (buf.length : ℚ))

/-! ### P3 type map (src/unnamed/part_001, first module) -/

/-- TYPE_MAP['*'] (lines 26-30): general fields that apply to all TORs. -/
def typeMapGeneral : Nat → Option String
  | 0x81 => some "u32"
  | 0x83 => some "u32"
  | 0x85 => some "u64"
  | _ => none

/-- TYPE_MAP's per-TOR tables (lines 32-97): passing, status, version, getTime,
loopTrigger, gpsInfo and error. -/
def typeMapPerTor : Nat → Nat → Option String
  | 0x0001, tof =>
    match tof with
    | 0x01 => some "u32" | 0x03 => some "u32" | 0x13 => some "u32"
    | 0x04 => some "u64" | 0x10 => some "u64"
    | 0x05 => some "u16" | 0x06 => some "u16" | 0x08 => some "u16"
    | 0x0A => some "hex" | 0x0E => some "u32" | 0x0F => some "u8"
    | 0x14 => some "u8" | 0x30 => some "u8" | 0x31 => some "u8" | 0x40 => some "u8"
    | _ => none
  | 0x0002, tof =>
    match tof with
    | 0x01 => some "u16" | 0x06 => some "u8" | 0x07 => some "i16"
    | 0x0A => some "u8" | 0x0B => some "u8" | 0x0C => some "u8"
    | _ => none
  | 0x0003, tof =>
    match tof with
    | 0x01 => some "u8" | 0x02 => some "string" | 0x03 => some "string"
    | 0x04 => some "u32" | 0x08 => some "u64" | 0x0A => some "u16" | 0x0C => some "u32"
    | _ => none
  | 0x0024, tof =>
    match tof with
    | 0x01 => some "u64" | 0x04 => some "u16" | 0x05 => some "u64"
    | _ => none
  | 0x002F, tof =>
    match tof with
    | 0x01 => some "string" | 0x02 => some "u64" | 0x04 => some "u16"
    | 0x05 => some "i16" | 0x06 => some "u8" | 0x07 => some "u32"
    | 0x08 => some "u64" | 0x09 => some "u16" | 0x0A => some "u16"
    | _ => none
  | 0x0030, tof =>
    match tof with
    | 0x01 => some "i32" | 0x02 => some "i32" | 0x03 => some "u8"
    | _ => none
  | 0xFFFF, tof =>
    match tof with
    | 0x01 => some "u16" | 0x02 => some "string"
    | _ => none
  | _, _ => none

/-- getFieldType (lines 100-103):
(TYPE_MAP[tor] && TYPE_MAP[tor][tof]) || TYPE_MAP['*'][tof] || null.
All type strings are non-empty, so JavaScript truthiness is Option.isSome. -/
def getFieldType (tor tof : Nat) : Option String :=
  match typeMapPerTor tor tof with
  | some t => some t
  | none => typeMapGeneral tof

/-! ### Name resolution (src/unnamed/part_001, second module) -/

/-- ASCII alphanumeric test of the regex class [a-zA-Z0-9]. -/
def isAlnumAscii (c : Char) : Bool :=
  ('a' ≤ c && c ≤ 'z') || ('A' ≤ c && c ≤ 'Z') || ('0' ≤ c && c ≤ '9')

mutual

/-- .replace(/[^a-zA-Z0-9]+/g, ' ') (line 109), outside a non-alphanumeric run:
each maximal run of non-alphanumeric characters becomes a single space. -/
def replaceRuns : List Char → List Char
  | [] => []
  | c :: cs => if isAlnumAscii c then c :: replaceRuns cs else ' ' :: replaceRunsSkip cs

/-- replaceRuns, inside a non-alphanumeric run whose replacement space has
already been emitted. -/
def replaceRunsSkip : List Char → List Char
  | [] => []
  | c :: cs => if isAlnumAscii c then c :: replaceRuns cs else replaceRunsSkip cs

end

/-- .trim() (line 110). After replaceRuns the only whitespace character left is
' ', so trimming whitespace is trimming spaces. -/
def trimChars (cs : List Char) : List Char :=
  ((cs.dropWhile fun c => c = ' ').reverse.dropWhile fun c => c = ' ').reverse

/-- .split(/\s+/) (line 111). After replaceRuns and trim, whitespace runs are
single interior spaces, so the regex split is a split at each space; on the
empty string JavaScript yields [''] and this yields [[]]. -/
def splitOnSpace : List Char → List (List Char)
  | [] => [[]]
  | c :: cs =>
    if c = ' ' then [] :: splitOnSpace cs
    else
      match splitOnSpace cs with
      | [] => [[c]]
      | w :: ws => (c :: w) :: ws

/-- .map((w, i) => i === 0 ? w.toLowerCase() : (w.charAt(0).toUpperCase() + w.slice(1).toLowerCase()))
(line 112); inputs are ASCII, where JavaScript case mapping agrees with Char.toLower/toUpper. -/
def camelWord (i : Nat) (w : List Char) : List Char :=
  if i = 0 then w.map Char.toLower
  else
    match w with
    | [] => []
    | c :: rest => Char.toUpper c :: rest.map Char.toLower

/-- toCamelCase (src/unnamed/part_001, lines 107-114). -/
def toCamelCase (s : String) : String :=
  String.mk ((((splitOnSpace (trimChars (replaceRuns s.data))).enum).map
    fun iw => camelWord iw.1 iw.2).flatten)

/-- Hexadecimal digit characters as produced by Number.prototype.toString(16). -/
def hexChar (n : Nat) : Char :=
  "0123456789abcdef".data.getD n '0'

/-- Fuelled core of toString(16): most significant digit first. -/
def hexCore : Nat → Nat → List Char
  | 0, _ => []
  | fuel + 1, n => if n < 16 then [hexChar n] else hexCore fuel (n / 16) ++ [hexChar (n % 16)]

/-- n.toString(16): lowercase hexadecimal digits of n. -/
def hexDigits (n : Nat) : List Char :=
  hexCore (n + 1) n

/-- .padStart(len, c): left-pad to the requested length. -/
def padStartChars (len : Nat) (c : Char) (s : List Char) : List Char :=
  List.replicate (len - s.length) c ++ s

/-- TOR name table (src/unnamed/part_001, lines 117-137). -/
def torNameTable : Nat → Option String
  | 0x0000 => some "Reset"
  | 0x0001 => some "Passing"
  | 0x0002 => some "Status"
  | 0x0003 => some "Version"
  | 0x0004 => some "Resend passings"
  | 0x0005 => some "Clear passings"
  | 0x0012 => some "Timing setting"
  | 0x0013 => some "Server settings"
  | 0x0015 => some "Session"
  | 0x0016 => some "Network settings"
  | 0x0018 => some "Watchdog"
  | 0x001C => some "Unlock functions"
  | 0x0020 => some "Ping"
  | 0x0024 => some "Get time"
  | 0x0028 => some "General settings"
  | 0x002D => some "Signals"
  | 0x002F => some "Loop trigger"
  | 0x0030 => some "GPS info"
  | 0xFFFF => some "Error"
  | _ => none

/-- GENERAL_TOF (src/unnamed/part_001, lines 140-144). -/
def generalTofNames : Nat → Option String
  | 0x81 => some "Dec. ID"
  | 0x82 => some "Controller ID"
  | 0x83 => some "Request ID"
  | _ => none

/-- TOF_BY_TOR (src/unnamed/part_001, lines 146-190). -/
def tofByTor : Nat → Nat → Option String
  | 0x0001, tof =>
    match tof with
    | 0x01 => some "Passing number" | 0x03 => some "Transponder" | 0x04 => some "RTC Time"
    | 0x05 => some "Strength" | 0x06 => some "Hits" | 0x08 => some "Flags"
    | 0x0A => some "Tran Code" | 0x0E => some "User Flags" | 0x0F => some "Driver ID"
    | 0x10 => some "UTC Time" | 0x13 => some "RTC ID" | 0x14 => some "Sport"
    | 0x30 => some "Voltage" | 0x31 => some "Temperature" | 0x40 => some "Car Id"
    | _ => none
  | 0x0002, tof =>
    match tof with
    | 0x01 => some "Noise" | 0x06 => some "GPS" | 0x07 => some "Temperature"
    | 0x0A => some "SatInUse" | 0x0B => some "Loop triggers" | 0x0C => some "Input Voltage"
    | _ => none
  | 0x0003, tof =>
    match tof with
    | 0x01 => some "Decoder type" | 0x02 => some "Description" | 0x03 => some "Version"
    | 0x04 => some "Release" | 0x08 => some "Registration" | 0x0A => some "Build number"
    | 0x0C => some "Options"
    | _ => none
  | 0x0024, tof =>
    match tof with
    | 0x01 => some "RTC Time" | 0x04 => some "Flags" | 0x05 => some "UTC Time"
    | _ => none
  | 0xFFFF, tof =>
    match tof with
    | 0x01 => some "Code" | 0x02 => some "Description"
    | _ => none
  | _, _ => none

/-- torNameCamelCase (src/unnamed/part_001, lines 192-195):
toCamelCase(TOR[tor] || (Tor 0x + tor.toString(16).padStart(4,'0'))). -/
def torNameCamelCase (tor : Nat) : String :=
  let name :=
    match torNameTable tor with
    | some n => n
    | none => "Tor 0x" ++ String.mk (padStartChars 4 '0' (hexDigits tor))
  toCamelCase name

/-- tofNameCamelCase (src/unnamed/part_001, lines 197-201):
toCamelCase(TOF_BY_TOR[tor]?.[tof] || GENERAL_TOF[tof] || (Tof 0x + tof.toString(16).padStart(2,'0'))).
All table names are non-empty, so JavaScript truthiness is Option.isSome. -/
def tofNameCamelCase (tor tof : Nat) : String :=
  let name :=
    match tofByTor tor tof with
    | some n => n
    | none =>
      match generalTofNames tof with
      | some n => n
      | none => "Tof 0x" ++ String.mk (padStartChars 2 '0' (hexDigits tof))
  toCamelCase name

/-! ### JSON values and JSON.stringify(value, null, 2) (platform built-in used
by src/src/http/postQueue.js line 59) -/

/-- JSON values as stored in queue entries. Numbers are modelled as integers
(the queue stores counters and identifiers; nothing here produces fractions). -/
inductive Json where
  | null : Json
  | bool (b : Bool) : Json
  | num (n : Int) : Json
  | str (s : String) : Json
  | arr (items : List Json) : Json
  | obj (fields : List (String × Json)) : Json

/-- Escape of one character inside a JSON string literal, as in
ECMA-262 QuoteJSONString. -/
def escapeJsonChar (c : Char) : String :=
  if c = '"' then "\\\""
  else if c = '\\' then "\\\\"
  else if c = (Char.ofNat 8) then "\\b"
  else if c = (Char.ofNat 12) then "\\f"
  else if c = '\n' then "\\n"
  else if c = '\r' then "\\r"
  else if c = '\t' then "\\t"
  else if c.toNat < 32 then
    "\\u00" ++ String.mk [hexChar (c.toNat / 16), hexChar (c.toNat % 16)]
  else String.singleton c

/-- JSON string literal quoting. -/
def quoteJson (s : String) : String :=
  "\"" ++ String.join (s.data.map escapeJsonChar) ++ "\""

/-- Indentation produced by JSON.stringify for gap "  " at nesting depth d. -/
def jsonIndent (d : Nat) : String :=
  String.mk (List.replicate (2 * d) ' ')

/-- Join a list of strings with a separator (the comma-newline-indent joins of
JSON.stringify). -/
def joinSep (sep : String) : List String → String
  | [] => ""
  | [x] => x
  | x :: xs => x ++ (sep ++ joinSep sep xs)

mutual

/-- JSON.stringify(v, null, 2) at nesting depth d (ECMA-262 SerializeJSONProperty
with gap two spaces). -/
def serializeJson : Nat → Json → String
  | _, .null => "null"
  | _, .bool true => "true"
  | _, .bool false => "false"
  | _, .num n => toString n
  | _, .str s => quoteJson s
  | d, .arr items => serializeArr d items
  | d, .obj fields => serializeObj d fields

/-- SerializeJSONArray with gap two spaces: an empty array prints as [], a
non-empty one puts each element on its own indented line. -/
def serializeArr : Nat → List Json → String
  | _, [] => "[]"
  | d, x :: xs =>
    "[\n" ++ jsonIndent (d + 1) ++
      (joinSep (",\n" ++ jsonIndent (d + 1)) (serializeItems (d + 1) (x :: xs)) ++
        ("\n" ++ (jsonIndent d ++ "]")))

/-- Serialized elements of an array, in order. -/
def serializeItems : Nat → List Json → List String
  | _, [] => []
  | d, x :: xs => serializeJson d x :: serializeItems d xs

/-- SerializeJSONObject with gap two spaces. -/
def serializeObj : Nat → List (String × Json) → String
  | _, [] => "\x7b\x7d"
  | d, kv :: kvs =>
    "\x7b\n" ++ jsonIndent (d + 1) ++
      (joinSep (",\n" ++ jsonIndent (d + 1)) (serializeFields (d + 1) (kv :: kvs)) ++
        ("\n" ++ (jsonIndent d ++ "\x7d")))

/-- Serialized key: value members of an object, in order. -/
def serializeFields : Nat → List (String × Json) → List String
  | _, [] => []
  | d, (k, v) :: kvs => (quoteJson k ++ ": " ++ serializeJson d v) :: serializeFields d kvs

end

/-! ### Persistent queue (src/src/http/postQueue.js, first module) -/

/-- A queue entry (the object literal built in enqueue, lines 63-73). The
mutable fields drain touches are lastTriedAt, attempts and lastError. -/
structure Entry where
  id : String
  createdAt : String
  lastTriedAt : Option String
  attempts : Nat
  method : String
  url : String
  headers : Json
  data : Json
  lastError : String

/-- JSON form of an entry, with the key order of the enqueue object literal. -/
def Entry.toJson (e : Entry) : Json :=
  .obj
    [("id", .str e.id),
     ("createdAt", .str e.createdAt),
     ("lastTriedAt", match e.lastTriedAt with | none => .null | some t => .str t),
     ("attempts", .num e.attempts),
     ("method", .str e.method),
     ("url", .str e.url),
     ("headers", e.headers),
     ("data", e.data),
     ("lastError", .str e.lastError)]

/-- Contents written by persist (line 59): JSON.stringify(this.queue, null, 2). -/
def persistContents (q : List Entry) : String :=
  serializeJson 0 (.arr (q.map Entry.toJson))

/-- A flat file system: path to contents. -/
def FS : Type := List (String × String)

/-- Contents at a path (first binding wins). -/
def fsLookup : FS → String → Option String
  | [], _ => none
  | e :: t, p => if e.1 = p then some e.2 else fsLookup t p

/-- fs.writeFileSync: bind p to c, dropping any previous binding. -/
def fsSet (fs : FS) (p c : String) : FS :=
  (p, c) :: List.filter (fun e => ¬ e.1 = p) fs

/-- Remove a binding. -/
def fsDel (fs : FS) (p : String) : FS :=
  List.filter (fun e => ¬ e.1 = p) fs

/-- fs.renameSync src dst: dst takes src's contents and src disappears.
(Renaming a missing source throws in Node; atomicWrite always creates it first.) -/
def fsRename (fs : FS) (src dst : String) : FS :=
  match fsLookup fs src with
  | none => fs
  | some c => fsSet (fsDel fs src) dst c

/-- path.dirname for POSIX paths without trailing slashes: everything before the
last '/', "." when there is no '/', "/" for entries of the root. -/
def dirname (p : String) : String :=
  match p.data.reverse.dropWhile (fun c => ¬ c = '/') with
  | [] => "."
  | [_] => "/"
  | _ :: rest => String.mk rest.reverse

/-- atomicWrite (src/src/http/postQueue.js, lines 20-26): write filePath.tmp in
the same directory, then rename it over filePath. (The mkdirSync call only
creates directories, which this file model does not track.) -/
def atomicWrite (fs : FS) (filePath contents : String) : FS :=
  fsRename (fsSet fs (filePath ++ ".tmp") contents) (filePath ++ ".tmp") filePath

/-- persist (src/src/http/postQueue.js, lines 58-60) acting on the file system. -/
def persistFs (fs : FS) (filePath : String) (q : List Entry) : FS :=
  atomicWrite fs filePath (persistContents q)

/-- Outcome of one postFn call as observed by drain: the resolved value may be
missing (res?.ok of undefined), a response object with ok and status, or a
thrown exception with an optional message. -/
inductive PostResult where
  | missing : PostResult
  | resp (ok : Bool) (status : Option Nat) : PostResult
  | exn (msg : Option String) : PostResult
deriving DecidableEq

/-- res?.ok is truthy. -/
def PostResult.isOk : PostResult → Bool
  | .resp true _ => true
  | _ => false

/-- lastError set on a failed drain iteration: HTTP status (res?.status ?? 'unknown')
for a non-ok response, e?.message || 'post exception' for a throw. -/
def failMessage : PostResult → String
  | .missing => "HTTP unknown"
  | .resp _ (some s) => "HTTP " ++ toString s
  | .resp _ none => "HTTP unknown"
  | .exn (some m) => if m = "" then "post exception" else m
  | .exn none => "post exception"

/-- Head-entry mutation at the top of each drain iteration (lines 103-104):
lastTriedAt = now, attempts = (attempts || 0) + 1. -/
def bumpTried (now : String) (e : Entry) : Entry :=
  { e with lastTriedAt := some now, attempts := e.attempts + 1 }

/-- Everything one drain call did: the final queue, the persisted snapshots in
order, the successfully replayed entries in order, and the entries handed to
postFn in order. -/
structure DrainOut where
  queue : List Entry
  persists : List (List Entry)
  delivered : List Entry
  tried : List Entry

/-- The drain while-loop (src/src/http/postQueue.js, lines 101-146): while the
queue is non-empty and processed < drainMaxPerTick, mutate the head
(lastTriedAt, attempts), call postFn; on ok shift the head, persist and
continue with processed+1; otherwise set lastError, persist and break. -/
def drainGo (postFn : Entry → PostResult) (now : String) (maxN : Nat) :
    List Entry → Nat → DrainOut
  | [], _ => ⟨[], [], [], []⟩
  | e :: rest, processed =>
    if processed < maxN then
      let tried := bumpTried now e
      let res := postFn tried
      if res.isOk then
        let out := drainGo postFn now maxN rest (processed + 1)
        ⟨out.queue, rest :: out.persists, tried :: out.delivered, tried :: out.tried⟩
      else
        let failed := { tried with lastError := failMessage res }
        ⟨failed :: rest, [failed :: rest], [], [tried]⟩
    else
      ⟨e :: rest, [], [], []⟩

/-- drain (src/src/http/postQueue.js, lines 93-150): the guards at lines 94-95
(single-flight _draining flag, empty queue) and then the loop. -/
def drain (draining : Bool) (postFn : Entry → PostResult) (now : String) (maxN : Nat)
    (q : List Entry) : DrainOut :=
  if draining then ⟨q, [], [], []⟩
  else if q.isEmpty then ⟨q, [], [], []⟩
  else drainGo postFn now maxN q 0

/-- Entry fields enqueue fixes once and drain never changes. -/
structure EntryCore where
  id : String
  createdAt : String
  method : String
  url : String
  headers : Json
  data : Json

/-- Immutable projection of an entry. -/
def Entry.core (e : Entry) : EntryCore :=
  ⟨e.id, e.createdAt, e.method, e.url, e.headers, e.data⟩

/-- The entry built by enqueue (src/src/http/postQueue.js, lines 62-73):
attempts 0, lastTriedAt null, lastError = reason || 'post failed' (both a
missing and an empty reason are falsy). -/
def mkEntry (id createdAt method url : String) (headers data : Json)
    (reason : Option String) : Entry :=
  { id := id, createdAt := createdAt, lastTriedAt := none, attempts := 0,
    method := method, url := url, headers := headers, data := data,
    lastError :=
      match reason with
      | some r => if r = "" then "post failed" else r
      | none => "post failed" }

/-- One operation on a PostQueue: enqueue (lines 62-91, which appends and
persists) or a drain call with the postFn outcomes it will observe. -/
inductive QOp where
  | enq (id createdAt method url : String) (headers data : Json) (reason : Option String)
  | drainCall (postFn : Entry → PostResult) (now : String)

/-- Effect of one operation on the in-memory queue, also yielding the entries
delivered by the operation. -/
def stepOp (maxN : Nat) (q : List Entry) : QOp → List Entry × List Entry
  | .enq id createdAt method url headers data reason =>
    (q ++ [mkEntry id createdAt method url headers data reason], [])
  | .drainCall postFn now =>
    let out := drain false postFn now maxN q
    (out.queue, out.delivered)

/-- Run a sequence of operations, collecting all delivered entries in order. -/
def runOps (maxN : Nat) (q : List Entry) : List QOp → List Entry × List Entry
  | [] => (q, [])
  | op :: ops =>
    let (q', d) := stepOp maxN q op
    let (q'', ds) := runOps maxN q' ops
    (q'', d ++ ds)

/-- The entries a list of operations enqueues, in order. -/
def enqueuedEntries : List QOp → List Entry
  | [] => []
  | .enq id createdAt method url headers data reason :: ops =>
    mkEntry id createdAt method url headers data reason :: enqueuedEntries ops
  | .drainCall _ _ :: ops => enqueuedEntries ops

/-! ### Inline retry (src/src/http/postQueue.js, second module: postWithRetries) -/

/-- What one axios attempt produced: a resolved response with a status, or a
thrown error (network failure, timeout) with a message. -/
inductive Attempt where
  | resp (status : Nat) : Attempt
  | err (msg : String) : Attempt
deriving DecidableEq

/-- Result of postWithRetries: the returned object, or the propagated throw. -/
inductive PostOutcome where
  | ok (status : Nat) : PostOutcome
  | notOk (status : Nat) : PostOutcome
  | thrown (msg : String) : PostOutcome
deriving DecidableEq

/-- Everything the retry loop did: its outcome, the delays it slept (in order)
and how many attempts it made. -/
structure RetryOut where
  result : PostOutcome
  sleeps : List Int
  attemptsMade : Nat

/-- retry on 429, 5xx; otherwise fail fast (line 195). -/
def retryableStatus (s : Nat) : Bool :=
  s = 429 || (500 ≤ s && s ≤ 599)

/-- The while(true) loop of postWithRetries (src/src/http/postQueue.js, lines
174-209), one iteration per attempt; attempt is the 1-based number of the
current attempt (the source increments its 0-initialized counter at the top of
each iteration). outcomes a is what attempt a produces. The loop only repeats
while attempt <= retries, so fuel = retries + 2 - attempt never reaches 0 from
the top-level call. -/
def retryLoop (outcomes : Nat → Attempt) (retries : Nat) (mult : ℚ) :
    Nat → Nat → Int → RetryOut
  | 0, _, _ => ⟨.thrown "out of fuel", [], 0⟩
  | fuel + 1, attempt, delay =>
    match outcomes attempt with
    | .resp s =>
      if 200 ≤ s ∧ s < 300 then ⟨.ok s, [], 1⟩
      else if ¬ retryableStatus s ∨ retries < attempt then ⟨.notOk s, [], 1⟩
      else
        let out := retryLoop outcomes retries mult fuel (attempt + 1) ⌊(delay : ℚ) * mult⌋
        ⟨out.result, delay :: out.sleeps, out.attemptsMade + 1⟩
    | .err m =>
      if retries < attempt then ⟨.thrown m, [], 1⟩
      else
        let out := retryLoop outcomes retries mult fuel (attempt + 1) ⌊(delay : ℚ) * mult⌋
        ⟨out.result, delay :: out.sleeps, out.attemptsMade + 1⟩

/-- postWithRetries (src/src/http/postQueue.js, lines 169-210), starting at
attempt 1 with delay retryDelayMs; delay = Math.floor(delay * retryBackoffMultiplier)
after each sleep. -/
def postWithRetries (outcomes : Nat → Attempt) (retries : Nat) (retryDelayMs : Int)
    (mult : ℚ) : RetryOut :=
  retryLoop outcomes retries mult (retries + 1) 1 retryDelayMs

/-- The delay slept before the k-th retry (0-based k): retryDelayMs with
floor (delay * mult) applied k times. -/
def delaySeq (retryDelayMs : Int) (mult : ℚ) (k : Nat) : Int :=
  (fun d => ⌊(d : ℚ) * mult⌋)^[k] retryDelayMs

/-! ### TCP reconnect backoff (src/src/logger.js) -/

/-- computeDelayMs (src/src/logger.js, lines 445-454) in exact arithmetic:
exp = max(0, attempt-1); delay = min(base * factor^exp, maxD);
jitter = delay * jitterRat; delay = delay + u * jitter with
u = Math.random()*2 - 1; result Math.max(0, Math.round(delay)). -/
def computeDelayMs (base maxD factor jitterRat : ℚ) (attempt : Nat) (u : ℚ) : Int :=
  let exp : Nat := attempt - 1
  let d1 := base * factor ^ exp
  let d2 := min d1 maxD
  let j := d2 * jitterRat
  let d3 := d2 + u * j
  max 0 (round d3)

/-- Reconnect-relevant state of the TCP supervisor closure in logger.js:
the attempt counter (line 436) and the stopping flag. -/
structure TcpSup where
  attempt : Nat
  stopping : Bool

/-- Events that touch the attempt counter: scheduleReconnect (lines 456-464,
called on connect error, timeout and close), a successful connect (lines
484-489, attempt = 0), and shutdown (sets stopping). -/
inductive TcpEv where
  | scheduleReconnect : TcpEv
  | connectOk : TcpEv
  | stop : TcpEv
deriving DecidableEq

/-- Effect of one event on the supervisor state. -/
def tcpStep (s : TcpSup) : TcpEv → TcpSup
  | .scheduleReconnect => if s.stopping then s else { s with attempt := s.attempt + 1 }
  | .connectOk => { s with attempt := 0 }
  | .stop => { s with stopping := true }

/-! ### Statement helpers -/

/-- Queue snapshots persisted by the first k successful drain iterations:
after the i-th success the queue is q with i+1 heads gone. -/
def successPersists (q : List Entry) (k : Nat) : List (List Entry) :=
  (List.range k).map (fun i => q.drop (i + 1))

/-- The head entry as it is left in the queue by a failed drain iteration. -/
def failedEntry (now : String) (r : PostResult) (e : Entry) : Entry :=
  { bumpTried now e with lastError := failMessage r }

/-- An attempt outcome that makes the retry loop try again (when budget
remains): a thrown error, or a response that is neither 2xx nor terminal. -/
def retryContinue : Attempt → Prop
  | .resp s => ¬ (200 ≤ s ∧ s < 300) ∧ retryableStatus s = true
  | .err _ => True

/-! ### Theorems -/

set_option maxRecDepth 10000

/-- C1: the exposed CRC function does not compute CRC-16/CCITT-FALSE. The
bit-by-bit reference (crc16Ref, which checks out on the standard test vector
"123456789" ↦ 0x29B1) gives 0xF1D1 on the single byte 0x01, while crc16Ccitt
gives 0xE1F1: the code XORs the data byte into the table output instead of
into the table index. -/
theorem crc16Ccitt_diverges_from_reference :
    crc16Ccitt [0x01] = 0xE1F1 ∧ crc16Ref [0x01] = 0xF1D1 ∧
    crc16Ref [0x31, 0x32, 0x33, 0x34, 0x35, 0x36, 0x37, 0x38, 0x39] = 0x29B1 ∧
    crc16Ccitt [0x01] < crc16Ref [0x01] := by
  refine ⟨by decide, by decide, by decide, by decide⟩

/-- C7 counterexample: a 20-byte buffer with exactly 17 printable bytes has
printable fraction exactly 0.85, yet isMostlyPrintable classifies it as NOT
printable — the code tests ok / length > 0.85 strictly, so the claimed
"≥ 0.85" boundary case fails. -/
theorem isMostlyPrintable_at_85_percent :
    (printableCount (List.replicate 17 97 ++ List.replicate 3 0) : ℚ) /
        ((List.replicate 17 97 ++ List.replicate 3 0 : List Nat).length : ℚ) = 85 / 100 ∧
    isMostlyPrintable (List.replicate 17 97 ++ List.replicate 3 0) = false := by
  constructor
  · norm_num [printableCount, List.replicate_succ]
  · norm_num [isMostlyPrintable, printableCount, List.replicate_succ]

/-- C7 (amended): isMostlyPrintable returns true exactly when the buffer is
non-empty and its printable fraction is strictly greater than 0.85
(equivalently 17·length < 20·count). -/
theorem isMostlyPrintable_iff (buf : List Nat) :
    isMostlyPrintable buf = true ↔
      0 < buf.length ∧ 17 * buf.length < 20 * printableCount buf := by
  simp only [isMostlyPrintable, Bool.and_eq_true, decide_eq_true_eq]
  constructor
  · rintro ⟨hlen, hlt⟩
    refine ⟨hlen, ?_⟩
    have hn : (0 : ℚ) < (buf.length : ℚ) := by exact_mod_cast hlen
    rw [div_lt_div_iff₀ (by norm_num) hn] at hlt
    have h : 85 * buf.length < printableCount buf * 100 := by exact_mod_cast hlt
    omega
  · rintro ⟨hlen, hlt⟩
    have hn : (0 : ℚ) < (buf.length : ℚ) := by exact_mod_cast hlen
    refine ⟨hlen, ?_⟩
    rw [div_lt_div_iff₀ (by norm_num) hn]
    have h : 85 * buf.length < printableCount buf * 100 := by omega
    exact_mod_cast h

/-- C8: at a TOR whose per-TOR tables lack the general TOFs (status, 0x0002),
the general type table does resolve 0x81/0x83/0x85 to u32/u32/u64, but the
general name table GENERAL_TOF is misaligned with the type map's own
annotations: 0x81 resolves to "decId" (not decoderId), 0x83 to "requestId"
(not controllerId), and 0x85 has no name at all and synthesises "tof0x85"
(not requestId). -/
theorem general_tof_resolution_at_status :
    getFieldType 0x0002 0x81 = some "u32" ∧
    getFieldType 0x0002 0x83 = some "u32" ∧
    getFieldType 0x0002 0x85 = some "u64" ∧
    tofNameCamelCase 0x0002 0x81 = "decId" ∧
    tofNameCamelCase 0x0002 0x83 = "requestId" ∧
    tofNameCamelCase 0x0002 0x85 = "tof0x85" := by
  refine ⟨by decide, by decide, by decide, by decide, by decide, by decide⟩

/-- C9 counterexample: for the unknown TOR 0x1234 the code synthesises
"tor0x1234" — toCamelCase strips the underscore the claim's "tor_0xXXXX"
format requires ("tor0x1234" and "tor_0x1234" differ, being ordered
strictly). -/
theorem synthetic_names_underscore_counterexample :
    torNameCamelCase 0x1234 = "tor0x1234" ∧
    tofNameCamelCase 0x0001 0x99 = "tof0x99" ∧
    (torNameCamelCase 0x1234).length = 9 ∧ ("tor_0x1234" : String).length = 10 := by
  refine ⟨by decide, by decide, by decide, by decide⟩

/-- C5 counterexample: with base = max = 10, jitterRatio = 0.27, attempt 1 and
jitter draw u = 0.95, the computed delay rounds 12.565 up to 13, which exceeds
the claimed bound maxDelayMs · (1 + jitterRatio) = 12.7. -/
theorem computeDelayMs_bound_counterexample :
    computeDelayMs 10 10 (9 / 5) (27 / 100) 1 (19 / 20) = 13 ∧
    (10 * (1 + 27 / 100) : ℚ) < 13 := by
  constructor
  · simp only [computeDelayMs]
    norm_num [round_eq]
  · norm_num

/-- C3 counterexample: with retryDelayMs = 5 and multiplier = 1.5 against
persistent 500s, the code sleeps 5, 7, 10 ms (the delay is floored after each
multiplication), while the claimed formula retryDelayMs · multiplier^(attempt-1)
gives 11.25 ms for the third retry — strictly more than the 10 ms slept. -/
theorem postWithRetries_sleep_formula_counterexample :
    (postWithRetries (fun _ => .resp 500) 3 5 (3 / 2)).sleeps = [5, 7, 10] ∧
    (5 : ℚ) * (3 / 2) ^ (3 - 1) = 45 / 4 ∧ (10 : ℚ) < 45 / 4 := by
  refine ⟨?_, by norm_num, by norm_num⟩
  simp [postWithRetries, retryLoop, retryableStatus]
  norm_num

/-- C6 counterexample: persisting the empty queue writes exactly "[]" — the
file contents end in ']' (and '\n' is a different character, smaller in the
character order), so persisted contents are not newline-terminated. -/
theorem persist_trailing_newline_counterexample :
    fsLookup (persistFs [] "q/queue.json" []) "q/queue.json" = some "[]" ∧
    ("[]" : String).data.getLast? = some ']' ∧ ('\n' : Char) < ']' := by
  refine ⟨?_, by decide, by decide⟩
  simp [persistFs, persistContents, serializeJson, serializeArr, atomicWrite,
    fsRename, fsLookup, fsSet, fsDel]

/-- Disjoint bitwise OR is addition: when x fits below bit k, OR-ing in a value
shifted left by k is the same as adding it. -/
theorem lor_shift_add {x y k : Nat} (hx : x < 2 ^ k) : x ||| (y <<< k) = 2 ^ k * y + x := by
  apply Nat.eq_of_testBit_eq
  intro j
  rw [Nat.testBit_lor, Nat.testBit_shiftLeft, Nat.testBit_mul_pow_two_add _ hx]
  by_cases h : j < k
  · have hk : ¬ (k ≤ j) := by omega
    simp [h, hk]
  · have hk : k ≤ j := by omega
    have hx2 : Nat.testBit x j = false :=
      Nat.testBit_lt_two_pow (lt_of_lt_of_le hx (Nat.pow_le_pow_right (by norm_num) hk))
    simp [h, hk, hx2]

/-- lor_shift_add with the shift written as a multiplication. -/
theorem lor_mul_pow {x y k : Nat} (hx : x < 2 ^ k) : x ||| y * 2 ^ k = 2 ^ k * y + x := by
  rw [← Nat.shiftLeft_eq]
  exact lor_shift_add hx

/-- The readUIntLE accumulator never leaves [0, 2^32). -/
theorem readFoldBound (il : List (Nat × Nat)) :
    ∀ v, v < 2 ^ 32 →
      il.foldl (fun v ib => v ||| (((ib.2 % 2 ^ 32) <<< (8 * ib.1 % 32)) % 2 ^ 32)) v < 2 ^ 32 := by
  induction il with
  | nil => intro v hv; simpa using hv
  | cons ib t ih =>
    intro v hv
    simp only [List.foldl_cons]
    exact ih _ (Nat.or_lt_two_pow hv (Nat.mod_lt _ (by norm_num)))

/-- C10: readUIntLE always returns a value in [0, 2^32); on buffers of at most
four bytes it returns the little-endian unsigned value, and a missing buffer
yields 0 — so no field, however wide, decodes to 2^32 or more through it. -/
theorem readUIntLE_spec (l : List Nat) (h4 : l.length ≤ 4) (hb : ∀ b ∈ l, b < 256) :
    readUIntLE (some l) = leValue l ∧ (∀ buf, readUIntLE buf < 2 ^ 32) ∧ readUIntLE none = 0 := by
  refine ⟨?_, ?_, rfl⟩
  · match l, hb with
    | [], _ => decide
    | [a], hb =>
      have ha : a < 256 := hb a (by simp)
      simp only [readUIntLE, List.enum, List.enumFrom, List.foldl, Nat.shiftLeft_eq]
      norm_num
      simp [leValue]
      omega
    | [a, b], hb =>
      have ha : a < 256 := hb a (by simp)
      have hb2 : b < 256 := hb b (by simp)
      simp only [readUIntLE, List.enum, List.enumFrom, List.foldl, Nat.shiftLeft_eq]
      norm_num
      rw [Nat.mod_eq_of_lt (show a < 4294967296 by omega),
          Nat.mod_eq_of_lt (show b * 256 < 4294967296 by omega),
          show (256 : Nat) = 2 ^ 8 by norm_num,
          @lor_mul_pow a b 8 (by omega)]
      simp [leValue]
      ring
    | [a, b, c], hb =>
      have ha : a < 256 := hb a (by simp)
      have hb2 : b < 256 := hb b (by simp)
      have hc : c < 256 := hb c (by simp)
      simp only [readUIntLE, List.enum, List.enumFrom, List.foldl, Nat.shiftLeft_eq]
      norm_num
      rw [Nat.mod_eq_of_lt (show a < 4294967296 by omega),
          Nat.mod_eq_of_lt (show b * 256 < 4294967296 by omega),
          Nat.mod_eq_of_lt (show c * 65536 < 4294967296 by omega),
          show (256 : Nat) = 2 ^ 8 by norm_num, show (65536 : Nat) = 2 ^ 16 by norm_num,
          @lor_mul_pow a b 8 (by omega),
          @lor_mul_pow (2 ^ 8 * b + a) c 16 (by omega)]
      simp [leValue]
      ring
    | [a, b, c, d], hb =>
      have ha : a < 256 := hb a (by simp)
      have hb2 : b < 256 := hb b (by simp)
      have hc : c < 256 := hb c (by simp)
      have hd : d < 256 := hb d (by simp)
      simp only [readUIntLE, List.enum, List.enumFrom, List.foldl, Nat.shiftLeft_eq]
      norm_num
      rw [Nat.mod_eq_of_lt (show a < 4294967296 by omega),
          Nat.mod_eq_of_lt (show b * 256 < 4294967296 by omega),
          Nat.mod_eq_of_lt (show c * 65536 < 4294967296 by omega),
          Nat.mod_eq_of_lt (show d * 16777216 < 4294967296 by omega),
          show (256 : Nat) = 2 ^ 8 by norm_num, show (65536 : Nat) = 2 ^ 16 by norm_num,
          show (16777216 : Nat) = 2 ^ 24 by norm_num,
          @lor_mul_pow a b 8 (by omega),
          @lor_mul_pow (2 ^ 8 * b + a) c 16 (by omega),
          @lor_mul_pow (2 ^ 16 * c + (2 ^ 8 * b + a)) d 24 (by omega)]
      simp [leValue]
      ring
  · intro buf
    match buf with
    | none => norm_num [readUIntLE]
    | some l' => exact readFoldBound _ 0 (by norm_num)

/-- Witness for readUIntLE_spec at the four-byte buffer [1, 2, 3, 4]. -/
theorem readUIntLE_spec_witness :
    readUIntLE (some [1, 2, 3, 4]) = 67305985 ∧
    readUIntLE (some [1, 2, 3, 4, 5]) < 2 ^ 32 ∧ readUIntLE none = 0 := by
  have h := readUIntLE_spec [1, 2, 3, 4] (by decide) (by decide)
  exact ⟨h.1.trans (by decide), h.2.1 (some [1, 2, 3, 4, 5]), h.2.2⟩

/-- Filtering out bindings of a different path does not change a lookup. -/
theorem lookupFilterNe (p r : String) (hr : ¬ r = p) :
    ∀ fs : List (String × String),
      fsLookup (List.filter (fun e => ¬ e.1 = p) fs) r = fsLookup fs r := by
  intro fs
  have hpr : ¬ p = r := fun hh => hr hh.symm
  induction fs with
  | nil => rfl
  | cons a t ih =>
    simp only [decide_not] at ih
    by_cases ha : a.1 = p
    · have har : ¬ a.1 = r := by rw [ha]; intro h; exact hr h.symm
      simp [List.filter, ha, fsLookup, har, ih, decide_not, hr, hpr]
    · by_cases har : a.1 = r
      · simp [List.filter, ha, fsLookup, har, decide_not, hr, hpr]
      · simp [List.filter, ha, fsLookup, har, ih, decide_not, hr, hpr]

/-- After filtering out every binding of p, looking up p yields nothing. -/
theorem lookupFilterSelf (p : String) :
    ∀ fs : List (String × String),
      fsLookup (List.filter (fun e => ¬ e.1 = p) fs) p = none := by
  intro fs
  induction fs with
  | nil => rfl
  | cons a t ih =>
    simp only [decide_not] at ih
    by_cases ha : a.1 = p
    · simp [List.filter, ha, ih, decide_not]
    · simp [List.filter, ha, fsLookup, ih, decide_not]

/-- Lookup after fsSet. -/
theorem fsLookup_set (fs : FS) (p c r : String) :
    fsLookup (fsSet fs p c) r = if r = p then some c else fsLookup fs r := by
  by_cases h : r = p
  · simp [fsSet, fsLookup, h]
  · have hpr : ¬ p = r := fun hh => h hh.symm
    have hf := lookupFilterNe p r h fs
    simp only [decide_not] at hf
    simp [fsSet, fsLookup, hpr, h, hf, decide_not]

/-- Lookup after fsDel. -/
theorem fsLookup_del (fs : FS) (p r : String) :
    fsLookup (fsDel fs p) r = if r = p then none else fsLookup fs r := by
  by_cases h : r = p
  · subst h
    have hf := lookupFilterSelf r fs
    simp only [decide_not] at hf
    simp [fsDel, hf, decide_not]
  · have hf := lookupFilterNe p r h fs
    simp only [decide_not] at hf
    simp [fsDel, h, hf, decide_not]

/-- Appending the ".tmp" suffix does not change the directory of a path. -/
theorem dirname_tmp (path : String) : dirname (path ++ ".tmp") = dirname path := by
  simp only [dirname, String.data_append]
  rw [List.reverse_append]
  simp [List.dropWhile]

/-- joinSep of a non-empty list starts with its first element. -/
theorem joinSep_start (sep : String) (x : String) (xs : List String) :
    ∃ r, joinSep sep (x :: xs) = x ++ r := by
  cases xs with
  | nil => exact ⟨"", by simp [joinSep]⟩
  | cons y t => exact ⟨sep ++ joinSep sep (y :: t), rfl⟩

/-- A serialized non-empty object opens with a brace and a newline. -/
theorem serializeObj_start (d : Nat) (kv : String × Json) (kvs : List (String × Json)) :
    ∃ r, serializeObj d (kv :: kvs) = "\x7b\n" ++ r := by
  simp only [serializeObj]
  exact ⟨jsonIndent (d + 1) ++
    (joinSep (",\n" ++ jsonIndent (d + 1)) (serializeFields (d + 1) (kv :: kvs)) ++
      ("\n" ++ (jsonIndent d ++ "\x7d"))), by rw [String.append_assoc]⟩

/-- C6 (amended): every persist atomically replaces the queue file with
JSON.stringify(queue, null, 2) — written to a ".tmp" sibling in the same
directory and renamed over the target, leaving no temp file and touching no
other path — and a non-empty queue is pretty-printed with 2-space indentation
(the file opens "[\n  \x7b..."); the contents carry NO trailing newline. -/
theorem persist_atomic_pretty_spec (fs : FS) (path : String) (q : List Entry) (p : String) :
    fsLookup (persistFs fs path q) p =
      (if p = path then some (persistContents q)
       else if p = path ++ ".tmp" then none
       else fsLookup fs p) ∧
    dirname (path ++ ".tmp") = dirname path ∧
    (∀ e rest, (persistContents (e :: rest)).data.take 5 = ("[\n  \x7b" : String).data) := by
  refine ⟨?_, dirname_tmp path, ?_⟩
  · have hl : fsLookup (fsSet fs (path ++ ".tmp") (persistContents q)) (path ++ ".tmp") =
        some (persistContents q) := by
      rw [fsLookup_set]
      simp
    simp only [persistFs, atomicWrite, fsRename, hl]
    rw [fsLookup_set, fsLookup_del, fsLookup_set]
    by_cases h1 : p = path
    · simp [h1]
    · by_cases h2 : p = path ++ ".tmp"
      · simp [h1, h2]
      · simp [h1, h2]
  · intro e rest
    obtain ⟨robj, hobj⟩ : ∃ r, serializeJson 1 (Entry.toJson e) = "\x7b\n" ++ r := by
      have h1 : serializeJson 1 (Entry.toJson e) =
          serializeObj 1
            [("id", .str e.id), ("createdAt", .str e.createdAt),
             ("lastTriedAt", match e.lastTriedAt with | none => .null | some t => .str t),
             ("attempts", .num e.attempts), ("method", .str e.method), ("url", .str e.url),
             ("headers", e.headers), ("data", e.data), ("lastError", .str e.lastError)] := by
        simp only [Entry.toJson, serializeJson]
      rw [h1]
      exact serializeObj_start 1 _ _
    obtain ⟨rj, hj⟩ := joinSep_start (",\n" ++ jsonIndent (0 + 1))
      (serializeJson (0 + 1) (Entry.toJson e)) (serializeItems (0 + 1) (rest.map Entry.toJson))
    simp only [persistContents, List.map_cons, serializeJson, serializeArr, serializeItems]
    rw [hj]
    rw [show serializeJson (0 + 1) (Entry.toJson e) = serializeJson 1 (Entry.toJson e) by norm_num,
      hobj]
    have hind : jsonIndent (0 + 1) = "  " := rfl
    rw [hind]
    simp [String.data_append, List.take]

/-- C5 (amended): the reconnect delay equals
round(min(base·factor^(n-1), max) · (1 + u·jitter)) floored at 0; for
u ∈ [-1, 1] and non-negative parameters it satisfies
0 ≤ delay ≤ round(max·(1+jitter)) — the claimed bound max·(1+jitter) itself can
be exceeded by the final rounding (see the counterexample), so the correct
bound carries the rounding; the attempt counter increments by one on each
scheduled reconnect (when not stopping) and only a successful connect resets
it to 0. -/
theorem reconnect_backoff_spec :
    (∀ base maxD factor jitterRat : ℚ, ∀ attempt : Nat, ∀ u : ℚ, 1 ≤ attempt →
      computeDelayMs base maxD factor jitterRat attempt u =
        max 0 (round (min (base * factor ^ (attempt - 1)) maxD * (1 + u * jitterRat)))) ∧
    (∀ base maxD factor jitterRat : ℚ, ∀ attempt : Nat, ∀ u : ℚ,
      0 ≤ base → 0 ≤ factor → 0 ≤ maxD → 0 ≤ jitterRat → -1 ≤ u → u ≤ 1 →
      0 ≤ computeDelayMs base maxD factor jitterRat attempt u ∧
      computeDelayMs base maxD factor jitterRat attempt u ≤ round (maxD * (1 + jitterRat))) ∧
    (∀ s : TcpSup, s.stopping = false →
      (tcpStep s .scheduleReconnect).attempt = s.attempt + 1) ∧
    (∀ s : TcpSup, (tcpStep s .connectOk).attempt = 0) ∧
    (∀ s : TcpSup, ∀ e : TcpEv, (tcpStep s e).attempt = 0 →
      e = .connectOk ∨ s.attempt = 0) := by
  refine ⟨?_, ?_, ?_, ?_, ?_⟩
  · intro base maxD factor jitterRat attempt u _
    simp only [computeDelayMs]
    congr 2
    ring
  · intro base maxD factor jitterRat attempt u hb hf hm hj hu1 hu2
    constructor
    · simp [computeDelayMs]
    · simp only [computeDelayMs, max_le_iff]
      have hd2nn : 0 ≤ min (base * factor ^ (attempt - 1)) maxD :=
        le_min (mul_nonneg hb (pow_nonneg hf _)) hm
      have hd2le : min (base * factor ^ (attempt - 1)) maxD ≤ maxD := min_le_right _ _
      have hstep : min (base * factor ^ (attempt - 1)) maxD +
          u * (min (base * factor ^ (attempt - 1)) maxD * jitterRat) ≤
          maxD * (1 + jitterRat) := by
        nlinarith [mul_nonneg hd2nn hj]
      have hrnn : (0 : Int) ≤ round (maxD * (1 + jitterRat)) := by
        have hnn : (0 : ℚ) ≤ maxD * (1 + jitterRat) := by nlinarith
        calc (0 : Int) = round (0 : ℚ) := by simp
        _ ≤ round (maxD * (1 + jitterRat)) := by
            rw [round_eq, round_eq]
            exact Int.floor_mono (by linarith)
      refine ⟨hrnn, ?_⟩
      rw [round_eq, round_eq]
      exact Int.floor_mono (by linarith)
  · intro s hs
    simp [tcpStep, hs]
  · intro s
    simp [tcpStep]
  · intro s e h
    match e with
    | .connectOk => exact Or.inl rfl
    | .scheduleReconnect =>
      refine Or.inr ?_
      by_cases hs : s.stopping
      · simpa [tcpStep, hs] using h
      · simp [tcpStep, hs] at h
    | .stop =>
      refine Or.inr ?_
      simpa [tcpStep] using h

/-- Witness for reconnect_backoff_spec at the default configuration
(base 1000, max 30000, factor 1.8, jitter 0.2), attempt 1 and jitter draw 0. -/
theorem reconnect_backoff_spec_witness :
    computeDelayMs 1000 30000 (9 / 5) (1 / 5) 1 0 = 1000 ∧
    0 ≤ computeDelayMs 1000 30000 (9 / 5) (1 / 5) 1 0 ∧
    computeDelayMs 1000 30000 (9 / 5) (1 / 5) 1 0 ≤ round ((30000 : ℚ) * (1 + 1 / 5)) ∧
    (tcpStep ⟨3, false⟩ .scheduleReconnect).attempt = 4 ∧
    (tcpStep ⟨7, false⟩ .connectOk).attempt = 0 ∧
    (TcpEv.connectOk = TcpEv.connectOk ∨ (⟨5, false⟩ : TcpSup).attempt = 0) := by
  have h := reconnect_backoff_spec
  have hb := h.2.1 1000 30000 (9 / 5) (1 / 5) 1 0 (by norm_num) (by norm_num) (by norm_num)
    (by norm_num) (by norm_num) (by norm_num)
  refine ⟨?_, hb.1, hb.2, ?_, h.2.2.2.1 ⟨7, false⟩, ?_⟩
  · refine (h.1 1000 30000 (9 / 5) (1 / 5) 1 0 (by norm_num)).trans ?_
    norm_num [round_eq]
  · have := h.2.2.1 ⟨3, false⟩ rfl
    simpa using this
  · exact h.2.2.2.2 ⟨5, false⟩ .connectOk (by simp [tcpStep])

/-- Persist snapshots of a cons queue after one success: one snapshot of the
tail, then the tail's snapshots. -/
theorem successPersists_cons (e : Entry) (rest : List Entry) (k : Nat) :
    successPersists (e :: rest) (k + 1) = rest :: successPersists rest k := by
  simp only [successPersists, List.range_succ_eq_map, List.map_cons, List.map_map]
  rfl

/-- With the single-flight flag clear, drain is exactly its loop started at
processed = 0 (the empty-queue guard and the empty loop agree). -/
theorem drain_eq_go (postFn : Entry → PostResult) (now : String) (maxN : Nat) (q : List Entry) :
    drain false postFn now maxN q = drainGo postFn now maxN q 0 := by
  cases q with
  | nil => simp [drain, drainGo]
  | cons e t => simp [drain]

/-- Closed-form characterization of the drain loop from any processed count:
some prefix of k heads is delivered (each bumped), and the loop either stops
cleanly (budget exhausted or queue empty) leaving the k-th drop, or stops at
the first failure, leaving the failed head (attempts bumped, lastError set)
in front of the untouched tail. -/
theorem drainGo_spec (postFn : Entry → PostResult) (now : String) (maxN : Nat) :
    ∀ (q : List Entry) (processed : Nat), processed ≤ maxN →
      ∃ k, processed + k ≤ maxN ∧ k ≤ q.length ∧
        (drainGo postFn now maxN q processed).delivered = (q.take k).map (bumpTried now) ∧
        (((drainGo postFn now maxN q processed).queue = q.drop k ∧
            (drainGo postFn now maxN q processed).persists = successPersists q k ∧
            (drainGo postFn now maxN q processed).tried = (q.take k).map (bumpTried now) ∧
            (processed + k = maxN ∨ k = q.length))
         ∨ (∃ e rest, q.drop k = e :: rest ∧ processed + k < maxN ∧
              (postFn (bumpTried now e)).isOk = false ∧
              (drainGo postFn now maxN q processed).queue =
                failedEntry now (postFn (bumpTried now e)) e :: rest ∧
              (drainGo postFn now maxN q processed).tried =
                (q.take k).map (bumpTried now) ++ [bumpTried now e] ∧
              (drainGo postFn now maxN q processed).persists =
                successPersists q k ++
                  [failedEntry now (postFn (bumpTried now e)) e :: rest])) := by
  intro q
  induction q with
  | nil =>
    intro processed hp
    refine ⟨0, by omega, by simp, by simp [drainGo], Or.inl ?_⟩
    simp [drainGo, successPersists]
  | cons e rest ih =>
    intro processed hp
    by_cases hlt : processed < maxN
    · cases hres : (postFn (bumpTried now e)).isOk
      · refine ⟨0, by omega, by simp, ?_, Or.inr ?_⟩
        · simp [drainGo, hlt, hres]
        · refine ⟨e, rest, rfl, by omega, hres, ?_, ?_, ?_⟩
          · simp [drainGo, hlt, hres, failedEntry]
          · simp [drainGo, hlt, hres]
          · simp [drainGo, hlt, hres, successPersists, failedEntry]
      · obtain ⟨k', hk1, hk2, hdel, hbr⟩ := ih (processed + 1) (by omega)
        have hgo : drainGo postFn now maxN (e :: rest) processed =
            ⟨(drainGo postFn now maxN rest (processed + 1)).queue,
             rest :: (drainGo postFn now maxN rest (processed + 1)).persists,
             bumpTried now e :: (drainGo postFn now maxN rest (processed + 1)).delivered,
             bumpTried now e :: (drainGo postFn now maxN rest (processed + 1)).tried⟩ := by
          simp [drainGo, hlt, hres]
        refine ⟨k' + 1, by omega, by simp; omega, ?_, ?_⟩
        · rw [hgo]
          simp [hdel]
        · rcases hbr with ⟨hq, hper, htr, hcond⟩ | ⟨e', rest', hdrop, hcond, hok, hq, htr, hper⟩
          · refine Or.inl ⟨?_, ?_, ?_, ?_⟩
            · rw [hgo]; simpa using hq
            · rw [hgo]; simp [hper, successPersists_cons]
            · rw [hgo]; simp [htr]
            · rcases hcond with h | h
              · exact Or.inl (by omega)
              · exact Or.inr (by simp [h])
          · refine Or.inr ⟨e', rest', by simpa using hdrop, by omega, hok, ?_, ?_, ?_⟩
            · rw [hgo]; simpa using hq
            · rw [hgo]; simp [htr]
            · rw [hgo]; simp [hper, successPersists_cons]
    · have hpm : processed = maxN := by omega
      refine ⟨0, by omega, by simp, ?_, Or.inl ⟨?_, ?_, ?_, Or.inl (by omega)⟩⟩
      · simp [drainGo, hlt]
      · simp [drainGo, hlt]
      · simp [drainGo, hlt, successPersists]
      · simp [drainGo, hlt]

/-- C2: one drain call hands at most drainMaxPerTick entries to postFn, always
the current head: some prefix of k ≤ drainMaxPerTick heads succeeds — each
bumped (lastTriedAt, attempts+1), removed, and the file persisted after each
removal — and then the drain either stops cleanly (budget or queue exhausted)
or stops at the first failing head, which stays in front with attempts
incremented and lastError set, persisted, with all later entries untouched. -/
theorem drain_spec (postFn : Entry → PostResult) (now : String) (maxN : Nat)
    (q : List Entry) :
    ∃ k, k ≤ maxN ∧ k ≤ q.length ∧
      (drain false postFn now maxN q).delivered = (q.take k).map (bumpTried now) ∧
      (drain false postFn now maxN q).tried.length ≤ maxN ∧
      (((drain false postFn now maxN q).queue = q.drop k ∧
          (drain false postFn now maxN q).persists = successPersists q k ∧
          (drain false postFn now maxN q).tried = (q.take k).map (bumpTried now) ∧
          (k = maxN ∨ k = q.length))
       ∨ (∃ e rest, q.drop k = e :: rest ∧ k < maxN ∧
            (postFn (bumpTried now e)).isOk = false ∧
            (drain false postFn now maxN q).queue =
              failedEntry now (postFn (bumpTried now e)) e :: rest ∧
            (drain false postFn now maxN q).tried =
              (q.take k).map (bumpTried now) ++ [bumpTried now e] ∧
            (drain false postFn now maxN q).persists =
              successPersists q k ++
                [failedEntry now (postFn (bumpTried now e)) e :: rest])) := by
  obtain ⟨k, hk1, hk2, hdel, hbr⟩ := drainGo_spec postFn now maxN q 0 (Nat.zero_le _)
  rw [← drain_eq_go] at hdel hbr
  refine ⟨k, by omega, hk2, hdel, ?_, ?_⟩
  · rcases hbr with ⟨hq, hper, htr, hcond⟩ | ⟨e, rest, hdrop, hcond, hok, hq, htr, hper⟩
    · rw [htr]
      simp only [List.length_map, List.length_take]
      omega
    · rw [htr]
      simp only [List.length_append, List.length_map, List.length_take, List.length_singleton]
      omega
  · rcases hbr with ⟨hq, hper, htr, hcond⟩ | ⟨e, rest, hdrop, hcond, hok, hq, htr, hper⟩
    · exact Or.inl ⟨hq, hper, htr, by omega⟩
    · exact Or.inr ⟨e, rest, hdrop, by omega, hok, hq, htr, hper⟩

/-- The drain loop only reorders entry ownership: delivered entries followed by
the remaining queue carry exactly the immutable cores of the input queue, in
order (the head mutations touch only lastTriedAt, attempts and lastError). -/
theorem drainGo_core (postFn : Entry → PostResult) (now : String) (maxN : Nat) :
    ∀ (q : List Entry) (processed : Nat),
      ((drainGo postFn now maxN q processed).delivered ++
        (drainGo postFn now maxN q processed).queue).map Entry.core = q.map Entry.core := by
  intro q
  induction q with
  | nil => intro p; simp [drainGo]
  | cons e rest ih =>
    intro p
    by_cases hlt : p < maxN
    · cases hres : (postFn (bumpTried now e)).isOk
      · simp only [drainGo, hlt, if_true, hres]
        simp [failedEntry, Entry.core, bumpTried]
      · have h := ih (p + 1)
        simp only [drainGo, hlt, if_true, hres]
        simp only [List.cons_append, List.map_cons] at h ⊢
        rw [h]
        rfl
    · simp [drainGo, hlt]

/-- drainGo_core for a drain call. -/
theorem drain_core (postFn : Entry → PostResult) (now : String) (maxN : Nat) (q : List Entry) :
    ((drain false postFn now maxN q).delivered ++
      (drain false postFn now maxN q).queue).map Entry.core = q.map Entry.core := by
  rw [drain_eq_go]
  exact drainGo_core postFn now maxN q 0

/-- Across any operation sequence, delivered entries followed by the final
queue carry exactly the cores of the initial queue followed by the enqueued
entries, in order. -/
theorem runOps_core (maxN : Nat) :
    ∀ (ops : List QOp) (q : List Entry),
      ((runOps maxN q ops).2 ++ (runOps maxN q ops).1).map Entry.core =
        (q ++ enqueuedEntries ops).map Entry.core := by
  intro ops
  induction ops with
  | nil => intro q; simp [runOps, enqueuedEntries]
  | cons op rest ih =>
    intro q
    cases op with
    | enq id createdAt method url headers data reason =>
      have h := ih (q ++ [mkEntry id createdAt method url headers data reason])
      simp only [runOps, stepOp, enqueuedEntries, List.nil_append]
      simp only [List.map_append] at h ⊢
      rw [h]
      simp
    | drainCall pf now =>
      have h := ih (drain false pf now maxN q).queue
      have hc := drain_core pf now maxN q
      simp only [runOps, stepOp, enqueuedEntries]
      simp only [List.map_append] at h hc ⊢
      rw [List.append_assoc, h, ← List.append_assoc, hc]

/-- C4: queue FIFO order. Over any interleaving of enqueues and drains,
enqueue appends and drain removes only heads, so the delivered entries (by
their immutable cores) are a prefix-ordered sublist of the initial plus
enqueued entries: successful deliveries happen in exactly enqueue order. -/
theorem queue_fifo_order (maxN : Nat) (q0 : List Entry) (ops : List QOp) :
    ((runOps maxN q0 ops).2 ++ (runOps maxN q0 ops).1).map Entry.core =
      (q0 ++ enqueuedEntries ops).map Entry.core ∧
    List.Sublist ((runOps maxN q0 ops).2.map Entry.core)
      ((q0 ++ enqueuedEntries ops).map Entry.core) := by
  have h := runOps_core maxN ops q0
  refine ⟨h, ?_⟩
  rw [← h, List.map_append]
  exact List.sublist_append_left _ _

/-- The retry loop makes at least one attempt when it has fuel. -/
theorem retryLoop_made_pos (outcomes : Nat → Attempt) (retries : Nat) (mult : ℚ) :
    ∀ (fuel attempt : Nat) (delay : Int), 1 ≤ fuel →
      1 ≤ (retryLoop outcomes retries mult fuel attempt delay).attemptsMade := by
  intro fuel attempt delay hf
  match fuel, hf with
  | f + 1, _ =>
    cases co : outcomes attempt with
    | resp s =>
      simp only [retryLoop, co]
      split
      · simp
      · split <;> simp
    | err m =>
      simp only [retryLoop, co]
      split <;> simp

/-- The retry loop makes at most fuel attempts. -/
theorem retryLoop_made_le (outcomes : Nat → Attempt) (retries : Nat) (mult : ℚ) :
    ∀ (fuel attempt : Nat) (delay : Int),
      (retryLoop outcomes retries mult fuel attempt delay).attemptsMade ≤ fuel := by
  intro fuel
  induction fuel with
  | zero => intro attempt delay; simp [retryLoop]
  | succ f ih =>
    intro attempt delay
    cases co : outcomes attempt with
    | resp s =>
      simp only [retryLoop, co]
      split
      · simp
      · split
        · simp
        · have := ih (attempt + 1) ⌊(delay : ℚ) * mult⌋
          simp
          omega
    | err m =>
      simp only [retryLoop, co]
      split
      · simp
      · have := ih (attempt + 1) ⌊(delay : ℚ) * mult⌋
        simp
        omega
/-- The delays the retry loop sleeps are the iterated floored multiples of the
entry delay, one per retry. -/
theorem retryLoop_sleeps (outcomes : Nat → Attempt) (retries : Nat) (mult : ℚ) :
    ∀ (fuel attempt : Nat) (delay : Int), attempt + fuel = retries + 2 →
      (retryLoop outcomes retries mult fuel attempt delay).sleeps =
        (List.range ((retryLoop outcomes retries mult fuel attempt delay).attemptsMade - 1)).map
          (fun k => (fun d : Int => ⌊(d : ℚ) * mult⌋)^[k] delay) := by
  intro fuel
  induction fuel with
  | zero => intro attempt delay hinv; simp [retryLoop]
  | succ f ih =>
    intro attempt delay hinv
    have hrec : ∀ hle : attempt ≤ retries,
        (retryLoop outcomes retries mult f (attempt + 1) ⌊(delay : ℚ) * mult⌋).sleeps =
          (List.range
            ((retryLoop outcomes retries mult f (attempt + 1) ⌊(delay : ℚ) * mult⌋).attemptsMade - 1)).map
            (fun k => (fun d : Int => ⌊(d : ℚ) * mult⌋)^[k] ⌊(delay : ℚ) * mult⌋) :=
      fun hle => ih (attempt + 1) ⌊(delay : ℚ) * mult⌋ (by omega)
    have hshift : ∀ (n' : Nat), 1 ≤ n' →
        delay :: (List.range (n' - 1)).map
            (fun k => (fun d : Int => ⌊(d : ℚ) * mult⌋)^[k] ⌊(delay : ℚ) * mult⌋) =
          (List.range (n' + 1 - 1)).map (fun k => (fun d : Int => ⌊(d : ℚ) * mult⌋)^[k] delay) := by
      intro n' hn'
      have h1 : n' + 1 - 1 = (n' - 1) + 1 := by omega
      rw [h1, List.range_succ_eq_map, List.map_cons, List.map_map]
      congr 1
    cases co : outcomes attempt with
    | resp s =>
      simp only [retryLoop, co]
      split
      · simp
      · split
        · simp
        · next hcond =>
          have hle : attempt ≤ retries := by
            rcases not_or.mp hcond with ⟨h1, h2⟩
            omega
          have hn' := retryLoop_made_pos outcomes retries mult f (attempt + 1)
            ⌊(delay : ℚ) * mult⌋ (by omega)
          simp only []
          rw [hrec hle]
          exact hshift _ hn'
    | err m =>
      simp only [retryLoop, co]
      split
      · simp
      · next hcond =>
        have hle : attempt ≤ retries := by omega
        have hn' := retryLoop_made_pos outcomes retries mult f (attempt + 1)
          ⌊(delay : ℚ) * mult⌋ (by omega)
        simp only []
        rw [hrec hle]
        exact hshift _ hn' 
/-- The retry loop returns ok exactly when one of the attempts it made got a
2xx response, and then the final attempt is that 2xx response. -/
theorem retryLoop_ok_char (outcomes : Nat → Attempt) (retries : Nat) (mult : ℚ) :
    ∀ (fuel attempt : Nat) (delay : Int), attempt + fuel = retries + 2 →
      (∀ s, (retryLoop outcomes retries mult fuel attempt delay).result = .ok s →
        outcomes (attempt + (retryLoop outcomes retries mult fuel attempt delay).attemptsMade - 1) =
          .resp s ∧ 200 ≤ s ∧ s < 300) ∧
      ((∃ s, (retryLoop outcomes retries mult fuel attempt delay).result = .ok s) ↔
        (∃ b s, b < (retryLoop outcomes retries mult fuel attempt delay).attemptsMade ∧
          outcomes (attempt + b) = .resp s ∧ 200 ≤ s ∧ s < 300)) := by
  intro fuel
  induction fuel with
  | zero =>
    intro attempt delay hinv
    constructor
    · intro s hs
      simp [retryLoop] at hs
    · simp [retryLoop]
  | succ f ih =>
    intro attempt delay hinv
    cases co : outcomes attempt with
    | resp s0 =>
      simp only [retryLoop, co]
      split
      · next h2xx =>
        constructor
        · intro s hs
          simp only [PostOutcome.ok.injEq] at hs
          subst hs
          simp only [Nat.add_sub_cancel]
          exact ⟨co, h2xx⟩
        · constructor
          · intro _
            exact ⟨0, s0, by simp, by simpa using co, h2xx⟩
          · intro _
            exact ⟨s0, rfl⟩
      · split
        · next hterm =>
          constructor
          · intro s hs
            simp at hs
          · constructor
            · intro ⟨s, hs⟩
              simp at hs
            · intro ⟨b, s, hb, hco, h2⟩
              have hb0 : b = 0 := by simpa using hb
              subst hb0
              simp only [Nat.add_zero] at hco
              rw [co] at hco
              simp only [Attempt.resp.injEq] at hco
              subst hco
              next h2xx => exact absurd h2 h2xx
        · next h2xx hterm =>
          have hle : attempt ≤ retries := by
            rcases not_or.mp hterm with ⟨_, h2⟩
            omega
          have hIH := ih (attempt + 1) ⌊(delay : ℚ) * mult⌋ (by omega)
          have hn' := retryLoop_made_pos outcomes retries mult f (attempt + 1)
            ⌊(delay : ℚ) * mult⌋ (by omega)
          constructor
          · intro s hs
            simp only [] at hs
            have h := hIH.1 s hs
            rw [show attempt +
                ((retryLoop outcomes retries mult f (attempt + 1) ⌊(delay : ℚ) * mult⌋).attemptsMade + 1) - 1 =
              attempt + 1 + (retryLoop outcomes retries mult f (attempt + 1) ⌊(delay : ℚ) * mult⌋).attemptsMade - 1
              by omega]
            exact h
          · constructor
            · intro ⟨s, hs⟩
              obtain ⟨b', s', hb', hco', h2'⟩ := hIH.2.mp ⟨s, hs⟩
              refine ⟨b' + 1, s', by simp; omega, ?_, h2'⟩
              rw [show attempt + (b' + 1) = attempt + 1 + b' by omega]
              exact hco'
            · intro ⟨b, s, hb, hco, h2⟩
              cases b with
              | zero =>
                simp only [Nat.add_zero] at hco
                rw [co] at hco
                simp only [Attempt.resp.injEq] at hco
                subst hco
                exact absurd h2 h2xx
              | succ b' =>
                refine hIH.2.mpr ⟨b', s, by simp at hb; omega, ?_, h2⟩
                rw [show attempt + 1 + b' = attempt + (b' + 1) by omega]
                exact hco
    | err m0 =>
      simp only [retryLoop, co]
      split
      · constructor
        · intro s hs
          simp at hs
        · constructor
          · intro ⟨s, hs⟩
            simp at hs
          · intro ⟨b, s, hb, hco, h2⟩
            have hb0 : b = 0 := by simpa using hb
            subst hb0
            simp only [Nat.add_zero] at hco
            rw [co] at hco
            exact absurd hco (by simp)
      · next hterm =>
        have hle : attempt ≤ retries := by omega
        have hIH := ih (attempt + 1) ⌊(delay : ℚ) * mult⌋ (by omega)
        constructor
        · intro s hs
          simp only [] at hs
          have h := hIH.1 s hs
          rw [show attempt +
              ((retryLoop outcomes retries mult f (attempt + 1) ⌊(delay : ℚ) * mult⌋).attemptsMade + 1) - 1 =
            attempt + 1 + (retryLoop outcomes retries mult f (attempt + 1) ⌊(delay : ℚ) * mult⌋).attemptsMade - 1
            by omega]
          exact h
        · constructor
          · intro ⟨s, hs⟩
            obtain ⟨b', s', hb', hco', h2'⟩ := hIH.2.mp ⟨s, hs⟩
            refine ⟨b' + 1, s', by simp; omega, ?_, h2'⟩
            rw [show attempt + (b' + 1) = attempt + 1 + b' by omega]
            exact hco'
          · intro ⟨b, s, hb, hco, h2⟩
            cases b with
            | zero =>
              simp only [Nat.add_zero] at hco
              rw [co] at hco
              exact absurd hco (by simp)
            | succ b' =>
              refine hIH.2.mpr ⟨b', s, by simp at hb; omega, ?_, h2⟩
              rw [show attempt + 1 + b' = attempt + (b' + 1) by omega]
              exact hco
/-- Every attempt before the last was a retryable failure, and a retryable
failure with budget left is always followed by another attempt. -/
theorem retryLoop_continue (outcomes : Nat → Attempt) (retries : Nat) (mult : ℚ) :
    ∀ (fuel attempt : Nat) (delay : Int), attempt + fuel = retries + 2 →
      (∀ b, b + 1 < (retryLoop outcomes retries mult fuel attempt delay).attemptsMade →
        retryContinue (outcomes (attempt + b))) ∧
      (∀ b, b < (retryLoop outcomes retries mult fuel attempt delay).attemptsMade →
        attempt + b ≤ retries → retryContinue (outcomes (attempt + b)) →
        b + 1 < (retryLoop outcomes retries mult fuel attempt delay).attemptsMade) := by
  intro fuel
  induction fuel with
  | zero =>
    intro attempt delay hinv
    constructor
    · intro b hb
      simp [retryLoop] at hb
    · intro b hb
      simp [retryLoop] at hb
  | succ f ih =>
    intro attempt delay hinv
    cases co : outcomes attempt with
    | resp s0 =>
      simp only [retryLoop, co]
      split
      · next h2xx =>
        constructor
        · intro b hb
          simp at hb
        · intro b hb _ hrc
          have hb0 : b = 0 := by simpa using hb
          subst hb0
          simp only [Nat.add_zero] at hrc
          rw [co] at hrc
          exact absurd h2xx hrc.1.elim
      · split
        · next hterm =>
          constructor
          · intro b hb
            simp at hb
          · intro b hb hle hrc
            have hb0 : b = 0 := by simpa using hb
            subst hb0
            simp only [Nat.add_zero] at hrc hle
            rw [co] at hrc
            rcases hterm with h | h
            · rw [hrc.2] at h
              simp at h
            · omega
        · next h2xx hterm =>
          have hle : attempt ≤ retries := by
            rcases not_or.mp hterm with ⟨_, h2⟩
            omega
          have hIH := ih (attempt + 1) ⌊(delay : ℚ) * mult⌋ (by omega)
          have hn' := retryLoop_made_pos outcomes retries mult f (attempt + 1)
            ⌊(delay : ℚ) * mult⌋ (by omega)
          have hretry : retryableStatus s0 = true := by
            rcases not_or.mp hterm with ⟨h1, _⟩
            simpa using h1
          constructor
          · intro b hb
            simp only [] at hb
            cases b with
            | zero =>
              simp only [Nat.add_zero]
              rw [co]
              exact ⟨h2xx, hretry⟩
            | succ b' =>
              have h := hIH.1 b' (by simp at hb; omega)
              rw [show attempt + (b' + 1) = attempt + 1 + b' by omega]
              exact h
          · intro b hb hble hrc
            simp only []
            cases b with
            | zero =>
              simp
              omega
            | succ b' =>
              have h := hIH.2 b' (by simp at hb; omega) (by omega)
                (by rw [show attempt + 1 + b' = attempt + (b' + 1) by omega]; exact hrc)
              simp
              omega
    | err m0 =>
      simp only [retryLoop, co]
      split
      · next hterm =>
        constructor
        · intro b hb
          simp at hb
        · intro b hb hble _
          have hb0 : b = 0 := by simpa using hb
          subst hb0
          omega
      · next hterm =>
        have hle : attempt ≤ retries := by omega
        have hIH := ih (attempt + 1) ⌊(delay : ℚ) * mult⌋ (by omega)
        have hn' := retryLoop_made_pos outcomes retries mult f (attempt + 1)
          ⌊(delay : ℚ) * mult⌋ (by omega)
        constructor
        · intro b hb
          simp only [] at hb
          cases b with
          | zero =>
            simp only [Nat.add_zero]
            rw [co]
            trivial
          | succ b' =>
            have h := hIH.1 b' (by simp at hb; omega)
            rw [show attempt + (b' + 1) = attempt + 1 + b' by omega]
            exact h
        · intro b hb hble hrc
          simp only []
          cases b with
          | zero =>
            simp
            omega
          | succ b' =>
            have h := hIH.2 b' (by simp at hb; omega) (by omega)
              (by rw [show attempt + 1 + b' = attempt + (b' + 1) by omega]; exact hrc)
            simp
            omega
/-- A non-retryable non-2xx response ends the loop immediately with notOk of
that status; notOk and thrown results reflect the final attempt. -/
theorem retryLoop_fail_char (outcomes : Nat → Attempt) (retries : Nat) (mult : ℚ) :
    ∀ (fuel attempt : Nat) (delay : Int), attempt + fuel = retries + 2 →
      (∀ b s, b < (retryLoop outcomes retries mult fuel attempt delay).attemptsMade →
        outcomes (attempt + b) = .resp s → ¬ (200 ≤ s ∧ s < 300) → retryableStatus s = false →
        (retryLoop outcomes retries mult fuel attempt delay).attemptsMade = b + 1 ∧
        (retryLoop outcomes retries mult fuel attempt delay).result = .notOk s) ∧
      (∀ s, (retryLoop outcomes retries mult fuel attempt delay).result = .notOk s →
        outcomes (attempt + (retryLoop outcomes retries mult fuel attempt delay).attemptsMade - 1) =
          .resp s ∧ ¬ (200 ≤ s ∧ s < 300)) ∧
      (∀ m, (retryLoop outcomes retries mult fuel attempt delay).result = .thrown m →
        1 ≤ (retryLoop outcomes retries mult fuel attempt delay).attemptsMade →
        outcomes (attempt + (retryLoop outcomes retries mult fuel attempt delay).attemptsMade - 1) =
          .err m) := by
  intro fuel
  induction fuel with
  | zero =>
    intro attempt delay hinv
    refine ⟨?_, ?_, ?_⟩
    · intro b s hb
      simp [retryLoop] at hb
    · intro s hs
      simp [retryLoop] at hs
    · intro m _ hn
      simp [retryLoop] at hn
  | succ f ih =>
    intro attempt delay hinv
    cases co : outcomes attempt with
    | resp s0 =>
      simp only [retryLoop, co]
      split
      · next h2xx =>
        refine ⟨?_, ?_, ?_⟩
        · intro b s hb hco hn2 _
          have hb0 : b = 0 := by simpa using hb
          subst hb0
          simp only [Nat.add_zero] at hco
          rw [co] at hco
          simp only [Attempt.resp.injEq] at hco
          subst hco
          exact absurd h2xx hn2
        · intro s hs
          simp at hs
        · intro m hm
          simp at hm
      · split
        · next hterm =>
          refine ⟨?_, ?_, ?_⟩
          · intro b s hb hco hn2 hnr
            have hb0 : b = 0 := by simpa using hb
            subst hb0
            simp only [Nat.add_zero] at hco
            rw [co] at hco
            simp only [Attempt.resp.injEq] at hco
            subst hco
            simp
          · intro s hs
            simp only [PostOutcome.notOk.injEq] at hs
            subst hs
            simp only [Nat.add_sub_cancel]
            next h2xx => exact ⟨co, h2xx⟩
          · intro m hm
            simp at hm
        · next h2xx hterm =>
          have hle : attempt ≤ retries := by
            rcases not_or.mp hterm with ⟨_, h2⟩
            omega
          have hretry : retryableStatus s0 = true := by
            rcases not_or.mp hterm with ⟨h1, _⟩
            simpa using h1
          have hIH := ih (attempt + 1) ⌊(delay : ℚ) * mult⌋ (by omega)
          have hn' := retryLoop_made_pos outcomes retries mult f (attempt + 1)
            ⌊(delay : ℚ) * mult⌋ (by omega)
          refine ⟨?_, ?_, ?_⟩
          · intro b s hb hco hn2 hnr
            cases b with
            | zero =>
              simp only [Nat.add_zero] at hco
              rw [co] at hco
              simp only [Attempt.resp.injEq] at hco
              subst hco
              rw [hretry] at hnr
              simp at hnr
            | succ b' =>
              have h := hIH.1 b' s (by simp at hb; omega)
                (by rw [show attempt + 1 + b' = attempt + (b' + 1) by omega]; exact hco) hn2 hnr
              constructor
              · simp
                omega
              · simpa using h.2
          · intro s hs
            simp only [] at hs
            have h := hIH.2.1 s hs
            refine ⟨?_, h.2⟩
            rw [show attempt +
                ((retryLoop outcomes retries mult f (attempt + 1) ⌊(delay : ℚ) * mult⌋).attemptsMade + 1) - 1 =
              attempt + 1 + (retryLoop outcomes retries mult f (attempt + 1) ⌊(delay : ℚ) * mult⌋).attemptsMade - 1
              by omega]
            exact h.1
          · intro m hm _
            simp only [] at hm
            have h := hIH.2.2 m hm hn'
            rw [show attempt +
                ((retryLoop outcomes retries mult f (attempt + 1) ⌊(delay : ℚ) * mult⌋).attemptsMade + 1) - 1 =
              attempt + 1 + (retryLoop outcomes retries mult f (attempt + 1) ⌊(delay : ℚ) * mult⌋).attemptsMade - 1
              by omega]
            exact h
    | err m0 =>
      simp only [retryLoop, co]
      split
      · next hterm =>
        refine ⟨?_, ?_, ?_⟩
        · intro b s hb hco hn2 hnr
          have hb0 : b = 0 := by simpa using hb
          subst hb0
          simp only [Nat.add_zero] at hco
          rw [co] at hco
          exact absurd hco (by simp)
        · intro s hs
          simp at hs
        · intro m hm _
          simp only [PostOutcome.thrown.injEq] at hm
          subst hm
          simp only [Nat.add_sub_cancel]
          exact co
      · next hterm =>
        have hle : attempt ≤ retries := by omega
        have hIH := ih (attempt + 1) ⌊(delay : ℚ) * mult⌋ (by omega)
        have hn' := retryLoop_made_pos outcomes retries mult f (attempt + 1)
          ⌊(delay : ℚ) * mult⌋ (by omega)
        refine ⟨?_, ?_, ?_⟩
        · intro b s hb hco hn2 hnr
          cases b with
          | zero =>
            simp only [Nat.add_zero] at hco
            rw [co] at hco
            exact absurd hco (by simp)
          | succ b' =>
            have h := hIH.1 b' s (by simp at hb; omega)
              (by rw [show attempt + 1 + b' = attempt + (b' + 1) by omega]; exact hco) hn2 hnr
            constructor
            · simp
              omega
            · simpa using h.2
        · intro s hs
          simp only [] at hs
          have h := hIH.2.1 s hs
          refine ⟨?_, h.2⟩
          rw [show attempt +
              ((retryLoop outcomes retries mult f (attempt + 1) ⌊(delay : ℚ) * mult⌋).attemptsMade + 1) - 1 =
            attempt + 1 + (retryLoop outcomes retries mult f (attempt + 1) ⌊(delay : ℚ) * mult⌋).attemptsMade - 1
            by omega]
          exact h.1
        · intro m hm _
          simp only [] at hm
          have h := hIH.2.2 m hm hn'
          rw [show attempt +
              ((retryLoop outcomes retries mult f (attempt + 1) ⌊(delay : ℚ) * mult⌋).attemptsMade + 1) - 1 =
            attempt + 1 + (retryLoop outcomes retries mult f (attempt + 1) ⌊(delay : ℚ) * mult⌋).attemptsMade - 1
            by omega]
          exact h
/-- With an integer multiplier the floor in the delay recurrence is the
identity, giving the exact geometric sequence. -/
theorem delaySeq_int (d0 : Int) (z : Int) (k : Nat) :
    delaySeq d0 (z : ℚ) k = d0 * z ^ k := by
  induction k with
  | zero => simp [delaySeq]
  | succ k ihk =>
    have h : delaySeq d0 (z : ℚ) (k + 1) = ⌊((delaySeq d0 (z : ℚ) k : ℚ)) * (z : ℚ)⌋ := by
      simp only [delaySeq, Function.iterate_succ_apply']
    rw [h, ihk]
    have : ((d0 * z ^ k : ℤ) : ℚ) * (z : ℚ) = ((d0 * z ^ (k + 1) : ℤ) : ℚ) := by
      push_cast
      ring
    rw [this, Int.floor_intCast]

/-- C3 (amended): postWithRetries returns ok exactly when some attempt got a
status in [200,300); a response that is neither 2xx nor 429 nor 5xx ends the
call immediately with ok=false and that status; 429/5xx responses and network
errors are retried while attempts remain, with at most `retries` additional
attempts beyond the first; before the k-th retry it sleeps the k-th delay of
d1 = retryDelayMs, d(k+1) = floor(dk · multiplier) — equal to the claimed
retryDelayMs · multiplier^(k-1) whenever the multiplier is an integer (the
default ×2), but not in general (see the counterexample). -/
theorem postWithRetries_spec (outcomes : Nat → Attempt) (retries : Nat)
    (retryDelayMs : Int) (mult : ℚ) (out : RetryOut)
    (hout : out = postWithRetries outcomes retries retryDelayMs mult) :
    1 ≤ out.attemptsMade ∧ out.attemptsMade ≤ retries + 1 ∧
    out.sleeps = (List.range (out.attemptsMade - 1)).map (delaySeq retryDelayMs mult) ∧
    ((∃ s, out.result = .ok s) ↔
      (∃ a s, 1 ≤ a ∧ a ≤ out.attemptsMade ∧ outcomes a = .resp s ∧ 200 ≤ s ∧ s < 300)) ∧
    (∀ s, out.result = .ok s → outcomes out.attemptsMade = .resp s ∧ 200 ≤ s ∧ s < 300) ∧
    (∀ a, 1 ≤ a → a + 1 ≤ out.attemptsMade → retryContinue (outcomes a)) ∧
    (∀ a s, 1 ≤ a → a ≤ out.attemptsMade → outcomes a = .resp s → ¬ (200 ≤ s ∧ s < 300) →
      retryableStatus s = false → out.attemptsMade = a ∧ out.result = .notOk s) ∧
    (∀ s, out.result = .notOk s → outcomes out.attemptsMade = .resp s ∧ ¬ (200 ≤ s ∧ s < 300)) ∧
    (∀ m, out.result = .thrown m → outcomes out.attemptsMade = .err m) ∧
    (∀ a, 1 ≤ a → a ≤ out.attemptsMade → a ≤ retries → retryContinue (outcomes a) →
      a + 1 ≤ out.attemptsMade) ∧
    (∀ z : Int, mult = (z : ℚ) → ∀ k, delaySeq retryDelayMs mult k = retryDelayMs * z ^ k) := by
  subst hout
  simp only [postWithRetries]
  have hinv : 1 + (retries + 1) = retries + 2 := by omega
  have hpos := retryLoop_made_pos outcomes retries mult (retries + 1) 1 retryDelayMs (by omega)
  have hle := retryLoop_made_le outcomes retries mult (retries + 1) 1 retryDelayMs
  have hok := retryLoop_ok_char outcomes retries mult (retries + 1) 1 retryDelayMs hinv
  have hcont := retryLoop_continue outcomes retries mult (retries + 1) 1 retryDelayMs hinv
  have hfail := retryLoop_fail_char outcomes retries mult (retries + 1) 1 retryDelayMs hinv
  have hsl := retryLoop_sleeps outcomes retries mult (retries + 1) 1 retryDelayMs hinv
  refine ⟨hpos, hle, hsl, ?_, ?_, ?_, ?_, ?_, ?_, ?_, ?_⟩
  · constructor
    · intro hex
      obtain ⟨b, s, hb, hco, h2⟩ := hok.2.mp hex
      exact ⟨b + 1, s, by omega, by omega, by rw [show b + 1 = 1 + b by omega]; exact hco, h2⟩
    · intro ⟨a, s, ha1, ha2, hco, h2⟩
      exact hok.2.mpr ⟨a - 1, s, by omega, by rw [show 1 + (a - 1) = a by omega]; exact hco, h2⟩
  · intro s hs
    have h := hok.1 s hs
    rw [show 1 + (retryLoop outcomes retries mult (retries + 1) 1 retryDelayMs).attemptsMade - 1 =
      (retryLoop outcomes retries mult (retries + 1) 1 retryDelayMs).attemptsMade by omega] at h
    exact h
  · intro a ha1 ha2
    have h := hcont.1 (a - 1) (by omega)
    rw [show 1 + (a - 1) = a by omega] at h
    exact h
  · intro a s ha1 ha2 hco hn2 hnr
    have h := hfail.1 (a - 1) s (by omega)
      (by rw [show 1 + (a - 1) = a by omega]; exact hco) hn2 hnr
    exact ⟨by omega, h.2⟩
  · intro s hs
    have h := hfail.2.1 s hs
    rw [show 1 + (retryLoop outcomes retries mult (retries + 1) 1 retryDelayMs).attemptsMade - 1 =
      (retryLoop outcomes retries mult (retries + 1) 1 retryDelayMs).attemptsMade by omega] at h
    exact h
  · intro m hm
    have h := hfail.2.2 m hm hpos
    rw [show 1 + (retryLoop outcomes retries mult (retries + 1) 1 retryDelayMs).attemptsMade - 1 =
      (retryLoop outcomes retries mult (retries + 1) 1 retryDelayMs).attemptsMade by omega] at h
    exact h
  · intro a ha1 ha2 har hrc
    have h := hcont.2 (a - 1) (by omega) (by omega)
      (by rw [show 1 + (a - 1) = a by omega]; exact hrc)
    omega
  · intro z hz k
    rw [hz]
    exact delaySeq_int retryDelayMs z k
/-- Witness for postWithRetries_spec: a 404 on the first attempt returns
notOk 404 immediately with no sleeps; the integer-multiplier delay formula at
500 ms ×2 gives 4000 ms before the fourth retry. -/
theorem postWithRetries_spec_witness :
    (postWithRetries (fun a => if a = 1 then .resp 404 else .resp 200) 5 500 2).attemptsMade = 1 ∧
    (postWithRetries (fun a => if a = 1 then .resp 404 else .resp 200) 5 500 2).result =
      .notOk 404 ∧
    (postWithRetries (fun a => if a = 1 then .resp 404 else .resp 200) 5 500 2).sleeps = [] ∧
    delaySeq 500 (2 : ℚ) 3 = 4000 := by
  have h := postWithRetries_spec (fun a => if a = 1 then .resp 404 else .resp 200) 5 500 2
    (postWithRetries (fun a => if a = 1 then .resp 404 else .resp 200) 5 500 2) rfl
  have hff := h.2.2.2.2.2.2.1 1 404 (by omega) h.1 (by simp) (by omega) (by decide)
  refine ⟨hff.1, hff.2, ?_, ?_⟩
  · have hs := h.2.2.1
    rw [hff.1] at hs
    simpa using hs
  · have hz := h.2.2.2.2.2.2.2.2.2.2 2 (by norm_num) 3
    rw [hz]
    norm_num
/-- Every hexChar is one of the sixteen lowercase hex digit characters. -/
theorem hexChar_mem (n : Nat) : hexChar n ∈ ("0123456789abcdef" : String).data := by
  unfold hexChar
  rcases Nat.lt_or_ge n 16 with h | h
  · interval_cases n <;> decide
  · rw [List.getD_eq_default]
    · decide
    · have : ("0123456789abcdef" : String).data.length = 16 := by decide
      omega

/-- Hex digit characters are alphanumeric, lowercase-stable, and not spaces. -/
theorem hexSet_props : ∀ c ∈ ("0123456789abcdef" : String).data,
    isAlnumAscii c = true ∧ Char.toLower c = c ∧ ¬ c = ' ' := by decide

/-- All characters produced by hexCore are hex digit characters. -/
theorem hexCore_subset :
    ∀ (fuel n : Nat), ∀ c ∈ hexCore fuel n, c ∈ ("0123456789abcdef" : String).data := by
  intro fuel
  induction fuel with
  | zero => intro n c hc; simp [hexCore] at hc
  | succ f ih =>
    intro n c hc
    simp only [hexCore] at hc
    split at hc
    · simp at hc
      subst hc
      exact hexChar_mem n
    · rcases List.mem_append.mp hc with h | h
      · exact ih (n / 16) c h
      · simp at h
        subst h
        exact hexChar_mem (n % 16)

/-- toString(16) of a value below 16^(k+1) has at most k+1 digits. -/
theorem hexCore_len :
    ∀ (fuel n k : Nat), n < 16 ^ (k + 1) → (hexCore fuel n).length ≤ k + 1 := by
  intro fuel
  induction fuel with
  | zero => intro n k _; simp [hexCore]
  | succ f ih =>
    intro n k hk
    simp only [hexCore]
    split
    · simp
    · next hge =>
      cases k with
      | zero =>
        simp at hk
        omega
      | succ k' =>
        have hdiv : n / 16 < 16 ^ (k' + 1) := by
          rw [Nat.div_lt_iff_lt_mul (by norm_num)]
          calc n < 16 ^ (k' + 1 + 1) := hk
          _ = 16 ^ (k' + 1) * 16 := by ring
        have := ih (n / 16) k' hdiv
        simp
        omega
/-- The regex replace leaves a fully alphanumeric string unchanged, in both
states of the run automaton. -/
theorem replaceRuns_id :
    ∀ cs : List Char, (∀ c ∈ cs, isAlnumAscii c = true) →
      replaceRuns cs = cs ∧ replaceRunsSkip cs = cs := by
  intro cs
  induction cs with
  | nil => intro _; exact ⟨rfl, rfl⟩
  | cons c t ih =>
    intro h
    have hc : isAlnumAscii c = true := h c (by simp)
    have ht := ih (fun d hd => h d (by simp [hd]))
    constructor
    · simp [replaceRuns, hc, ht.1]
    · simp [replaceRunsSkip, hc, ht.1]

/-- The regex replace passes over an alphanumeric chunk untouched. -/
theorem replaceRuns_append_alnum :
    ∀ (w : List Char), (∀ c ∈ w, isAlnumAscii c = true) →
      ∀ cs, replaceRuns (w ++ cs) = w ++ replaceRuns cs := by
  intro w
  induction w with
  | nil => intro _ cs; simp
  | cons c t ih =>
    intro h cs
    have hc : isAlnumAscii c = true := h c (by simp)
    simp only [List.cons_append, replaceRuns, hc, if_true, List.append_eq]
    rw [ih (fun d hd => h d (by simp [hd])) cs]

/-- Splitting a string with no spaces yields that single word. -/
theorem splitOnSpace_no_space :
    ∀ cs : List Char, (∀ c ∈ cs, ¬ c = ' ') → splitOnSpace cs = [cs] := by
  intro cs
  induction cs with
  | nil => intro _; rfl
  | cons c t ih =>
    intro h
    have hc : ¬ c = ' ' := h c (by simp)
    simp only [splitOnSpace, hc, if_false]
    rw [ih (fun d hd => h d (by simp [hd]))]

/-- Splitting at the space after a space-free first word peels that word off. -/
theorem splitOnSpace_append :
    ∀ (w : List Char), (∀ c ∈ w, ¬ c = ' ') →
      ∀ cs, splitOnSpace (w ++ ' ' :: cs) = w :: splitOnSpace cs := by
  intro w
  induction w with
  | nil => intro _ cs; simp [splitOnSpace]
  | cons c t ih =>
    intro h cs
    have hc : ¬ c = ' ' := h c (by simp)
    simp only [List.cons_append, splitOnSpace, hc, if_false, List.append_eq]
    rw [ih (fun d hd => h d (by simp [hd])) cs]

/-- Trim leaves a string alone when neither end is a space. -/
theorem trimChars_of_ends (a z : Char) (mid : List Char) (ha : ¬ a = ' ') (hz : ¬ z = ' ') :
    trimChars (a :: (mid ++ [z])) = a :: (mid ++ [z]) := by
  simp only [trimChars]
  rw [List.dropWhile_cons_of_neg (by simpa using ha)]
  rw [show (a :: (mid ++ [z])).reverse = z :: (mid.reverse ++ [a]) by simp]
  rw [List.dropWhile_cons_of_neg (by simpa using hz)]
  simp
/-- toCamelCase of a synthetic two-word name "Www 0xdddd" (first word
alphanumeric, digits from the lowercase hex set): the first word is lowercased
and the "0x" word survives unchanged — the separating space is removed without
leaving an underscore or any other separator. -/
theorem toCamelCase_synth (a : Char) (w1' : List Char)
    (hw1 : ∀ c ∈ a :: w1', isAlnumAscii c = true ∧ ¬ c = ' ')
    (w : List Char) (hw : ∀ c ∈ w, c ∈ ("0123456789abcdef" : String).data) :
    toCamelCase (String.mk ((a :: w1') ++ ' ' :: '0' :: 'x' :: w)) =
      String.mk ((a :: w1').map Char.toLower ++ '0' :: 'x' :: w) := by
  have hwAl : ∀ c ∈ w, isAlnumAscii c = true ∧ Char.toLower c = c ∧ ¬ c = ' ' :=
    fun c hc => hexSet_props c (hw c hc)
  have hrr : replaceRuns ((a :: w1') ++ ' ' :: '0' :: 'x' :: w) =
      (a :: w1') ++ ' ' :: '0' :: 'x' :: w := by
    rw [replaceRuns_append_alnum (a :: w1') (fun c hc => (hw1 c hc).1)]
    have hsp : isAlnumAscii ' ' = false := by decide
    have h0 : isAlnumAscii '0' = true := by decide
    have hx : isAlnumAscii 'x' = true := by decide
    simp only [replaceRuns, replaceRunsSkip, hsp, h0, hx, if_true, if_false,
      Bool.false_eq_true]
    rw [(replaceRuns_id w (fun c hc => (hwAl c hc).1)).1]
  have htrim : trimChars ((a :: w1') ++ ' ' :: '0' :: 'x' :: w) =
      (a :: w1') ++ ' ' :: '0' :: 'x' :: w := by
    rcases List.eq_nil_or_concat w with hw0 | ⟨w', lw, hww⟩
    · subst hw0
      have h := trimChars_of_ends a 'x' (w1' ++ [' ', '0']) (hw1 a (by simp)).2 (by decide)
      simpa using h
    · subst hww
      have hlw := hwAl lw (by simp)
      have h := trimChars_of_ends a lw (w1' ++ ' ' :: '0' :: 'x' :: w')
        (hw1 a (by simp)).2 hlw.2.2
      simpa using h
  have hsplit : splitOnSpace ((a :: w1') ++ ' ' :: '0' :: 'x' :: w) =
      [a :: w1', '0' :: 'x' :: w] := by
    rw [splitOnSpace_append (a :: w1') (fun c hc => (hw1 c hc).2)]
    rw [splitOnSpace_no_space ('0' :: 'x' :: w) ?_]
    intro c hc
    simp only [List.mem_cons] at hc
    rcases hc with rfl | rfl | hc
    · decide
    · decide
    · exact (hwAl c hc).2.2
  simp only [toCamelCase]
  rw [hrr, htrim, hsplit]
  simp only [List.enum, List.enumFrom, List.map_cons, List.map_nil, camelWord, if_true,
    List.flatten]
  have hmw : w.map Char.toLower = w :=
    (List.map_congr_left (fun c hc => (hwAl c hc).2.1)).trans (List.map_id' w)
  simp [camelWord, hmw]
/-- C9 (amended): for a TOR absent from the name table the synthesised name is
"tor0x" followed by the four lowercase hex digits — with NO underscore (the
claimed tor_0xXXXX loses its underscore to toCamelCase) — and for a TOF absent
from both the per-TOR and general name tables it is likewise "tof0x" plus two
hex digits. -/
theorem synthetic_names_spec :
    (∀ tor : Nat, torNameTable tor = none → tor < 65536 →
      torNameCamelCase tor = "tor0x" ++ String.mk (padStartChars 4 '0' (hexDigits tor)) ∧
      (padStartChars 4 '0' (hexDigits tor)).length = 4) ∧
    (∀ tor tof : Nat, tofByTor tor tof = none → generalTofNames tof = none → tof < 256 →
      tofNameCamelCase tor tof = "tof0x" ++ String.mk (padStartChars 2 '0' (hexDigits tof)) ∧
      (padStartChars 2 '0' (hexDigits tof)).length = 2) := by
  constructor
  · intro tor hnone hlt
    have hpad : ∀ c ∈ padStartChars 4 '0' (hexDigits tor),
        c ∈ ("0123456789abcdef" : String).data := by
      intro c hc
      simp only [padStartChars, List.mem_append] at hc
      rcases hc with h | h
      · rw [List.eq_of_mem_replicate h]
        decide
      · exact hexCore_subset _ _ c h
    constructor
    · have hname : torNameCamelCase tor =
          toCamelCase ("Tor 0x" ++ String.mk (padStartChars 4 '0' (hexDigits tor))) := by
        simp [torNameCamelCase, hnone]
      rw [hname]
      rw [show "Tor 0x" ++ String.mk (padStartChars 4 '0' (hexDigits tor)) =
        String.mk (('T' :: ['o', 'r']) ++ ' ' :: '0' :: 'x' ::
          padStartChars 4 '0' (hexDigits tor)) from rfl]
      rw [toCamelCase_synth 'T' ['o', 'r'] (by decide) _ hpad]
      rw [show (('T' :: ['o', 'r']).map Char.toLower) = ['t', 'o', 'r'] by decide]
      rfl
    · have hlen := hexCore_len (tor + 1) tor 3 (by omega)
      simp only [padStartChars, List.length_append, List.length_replicate, hexDigits] at hlen ⊢
      omega
  · intro tor tof hnone1 hnone2 hlt
    have hpad : ∀ c ∈ padStartChars 2 '0' (hexDigits tof),
        c ∈ ("0123456789abcdef" : String).data := by
      intro c hc
      simp only [padStartChars, List.mem_append] at hc
      rcases hc with h | h
      · rw [List.eq_of_mem_replicate h]
        decide
      · exact hexCore_subset _ _ c h
    constructor
    · have hname : tofNameCamelCase tor tof =
          toCamelCase ("Tof 0x" ++ String.mk (padStartChars 2 '0' (hexDigits tof))) := by
        simp [tofNameCamelCase, hnone1, hnone2]
      rw [hname]
      rw [show "Tof 0x" ++ String.mk (padStartChars 2 '0' (hexDigits tof)) =
        String.mk (('T' :: ['o', 'f']) ++ ' ' :: '0' :: 'x' ::
          padStartChars 2 '0' (hexDigits tof)) from rfl]
      rw [toCamelCase_synth 'T' ['o', 'f'] (by decide) _ hpad]
      rw [show (('T' :: ['o', 'f']).map Char.toLower) = ['t', 'o', 'f'] by decide]
      rfl
    · have hlen := hexCore_len (tof + 1) tof 1 (by omega)
      simp only [padStartChars, List.length_append, List.length_replicate, hexDigits] at hlen ⊢
      omega

/-- Witness for synthetic_names_spec at the unknown TOR 0x1234 and the unknown
(passing, 0x99) TOF. -/
theorem synthetic_names_spec_witness :
    torNameCamelCase 0x1234 = "tor0x" ++ String.mk (padStartChars 4 '0' (hexDigits 0x1234)) ∧
    tofNameCamelCase 0x0001 0x99 = "tof0x" ++ String.mk (padStartChars 2 '0' (hexDigits 0x99)) := by
  have h := synthetic_names_spec
  exact ⟨(h.1 0x1234 (by decide) (by decide)).1, (h.2 0x0001 0x99 (by decide) (by decide) (by decide)).1⟩
end P3Bridge
